import Mathlib

/-!
# CryptoCalc — verification of the payment-crypto core

A shallow embedding of the hexadecimal / CryptoJS-word-array layer, the KCV,
PIN-block, key-assembly, DUKPT, TR-31 and Luhn operations of the repository
(`src/services/cryptoService.ts`, `src/components/KeyAssembler.tsx`, the
TR-31 `KeyBlockParser` component and `constants.ts`), together with theorems
settling the specification claims about them.

Block ciphers (CryptoJS `TripleDES` / `AES`, ECB mode, NoPadding) are external
collaborators of the core; they are modelled as abstract functions from a key
byte sequence and a data byte sequence to an optional ciphertext byte
sequence (`none` models the library throwing).
-/

namespace CryptoCalc

/-! ## Characters and hexadecimal primitives -/

/-- The hex digit characters accepted by `parseInt(·, 16)`, both cases. -/
def hexChars : List Char := "0123456789abcdefABCDEF".data

/-- The decimal digit characters. -/
def digitChars : List Char := "0123456789".data

/-- The uppercase hex digit characters. -/
def upperHexChars : List Char := "0123456789ABCDEF".data

/-- Numeric value of a hex digit character (JS `parseInt` on a single hex
digit).  Characters outside `[0-9a-fA-F]` are given value 0; all theorems
about hex strings restrict to `hexChars`. -/
def hexVal (c : Char) : Nat :=
  if 48 ≤ c.toNat ∧ c.toNat ≤ 57 then c.toNat - 48
  else if 97 ≤ c.toNat ∧ c.toNat ≤ 102 then c.toNat - 87
  else if 65 ≤ c.toNat ∧ c.toNat ≤ 70 then c.toNat - 55
  else 0

/-- Value of a decimal digit character (JS `parseInt(·, 10)`). -/
def digitVal (c : Char) : Nat := c.toNat - 48

/-- Lowercase hex digit for a value `< 16` (JS `Number.toString(16)` digit). -/
def hexDigitLower (n : Nat) : Char := "0123456789abcdef".data.getD n '0'

/-- Uppercase hex digit for a value `< 16`. -/
def hexDigitUpper (n : Nat) : Char := "0123456789ABCDEF".data.getD n '0'

/-- A string is a (case-insensitive) hex string. -/
def IsHexStr (s : String) : Prop := ∀ c ∈ s.data, c ∈ hexChars

/-- A string consists of decimal digits only. -/
def IsDigitStr (s : String) : Prop := ∀ c ∈ s.data, c ∈ digitChars

instance (s : String) : Decidable (IsHexStr s) := List.decidableBAll _ s.data

instance (s : String) : Decidable (IsDigitStr s) := List.decidableBAll _ s.data

theorem hexVal_lt_16 : ∀ c ∈ hexChars, hexVal c < 16 := by decide

theorem digit_mem_hexChars : ∀ c ∈ digitChars, c ∈ hexChars := by decide

theorem digit_isDigit : ∀ c ∈ digitChars, c.isDigit = true := by decide

/-! ## Byte sequences from hex strings (CryptoJS `Hex.parse`) -/

/-- Convert a list of nibble values into bytes, two nibbles per byte.
CryptoJS `Hex.parse` takes the input two characters at a time with
`substr(i, 2)`; a trailing lone character contributes its own value as the
final byte (the nibble lands in the low half of the byte position). -/
def pairsToBytes : List Nat → List Nat
  | [] => []
  | [a] => [a]
  | a :: b :: t => (16 * a + b) :: pairsToBytes t

/-- The byte sequence denoted by a hex string. -/
def hexBytes (s : String) : List Nat := pairsToBytes (s.data.map hexVal)

/-- Pack big-endian bytes into one 32-bit word. -/
def word4 (a b c d : Nat) : Nat := ((a * 256 + b) * 256 + c) * 256 + d

/-- Pack a byte sequence into 32-bit words, four bytes per word, the last
word zero-padded on the right (absent bytes are simply never OR-ed in). -/
def bytesToWords : List Nat → List Nat
  | [] => []
  | [a] => [word4 a 0 0 0]
  | [a, b] => [word4 a b 0 0]
  | [a, b, c] => [word4 a b c 0]
  | a :: b :: c :: d :: t => word4 a b c d :: bytesToWords t

/-- CryptoJS `WordArray`: a list of 32-bit words plus the significant length.
CryptoJS stores `sigBytes = hexLength / 2`, which can be fractional for an
odd-length hex string; we store the hex length itself (`sigNibbles`) and
recover the number of rendered bytes as `(sigNibbles + 1) / 2`. -/
structure WordArray where
  words : List Nat
  sigNibbles : Nat
  deriving DecidableEq, Repr

/-- CryptoJS `Hex.parse`. -/
def hexParse (s : String) : WordArray :=
  { words := bytesToWords (hexBytes s), sigNibbles := s.length }

/-- The four big-endian bytes of a 32-bit word:
`(w >>> (24 - 8*i)) & 0xff` for `i = 0, 1, 2, 3`. -/
def wordBytes (w : Nat) : List Nat :=
  [(w >>> 24) &&& 255, (w >>> 16) &&& 255, (w >>> 8) &&& 255, w &&& 255]

/-- The first `n` bytes of a word list; absent words read as zero
(JS `undefined >>> k` is `0`). This is the byte loop of the CryptoJS hex
stringifier `(words[i >>> 2] >>> (24 - (i % 4) * 8)) & 0xff`, grouped four
indices at a time. -/
def wordsToBytes : List Nat → Nat → List Nat
  | _, 0 => []
  | [], n + 1 => List.replicate (n + 1) 0
  | w :: ws, n + 1 => (wordBytes w).take (n + 1) ++ wordsToBytes ws (n + 1 - 4)

/-- Render a byte as two lowercase hex characters. -/
def byteHexLower (b : Nat) : List Char := [hexDigitLower (b / 16), hexDigitLower (b % 16)]

/-- Render a byte as two uppercase hex characters. -/
def byteHexUpper (b : Nat) : List Char := [hexDigitUpper (b / 16), hexDigitUpper (b % 16)]

/-- Lowercase hex rendering of a byte sequence (CryptoJS `toString(Hex)`
applied to a byte sequence). -/
def bytesToHexLower (bs : List Nat) : String := ⟨(bs.map byteHexLower).flatten⟩

/-- Uppercase hex rendering of a byte sequence. -/
def bytesToHexUpper (bs : List Nat) : String := ⟨(bs.map byteHexUpper).flatten⟩

/-- CryptoJS `WordArray.toString(Hex)`: renders `(sigNibbles + 1) / 2` bytes
read out of the word list, as lowercase hex. -/
def waToHex (wa : WordArray) : String :=
  bytesToHexLower (wordsToBytes wa.words ((wa.sigNibbles + 1) / 2))

/-! ## `xorHexStrings` (`src/services/cryptoService.ts`) -/

/-- Pad a word list with zero words up to length `n` (the in-place
`shorter.words.push(0)` loop of `xorHexStrings`). -/
def padWords (ws : List Nat) (n : Nat) : List Nat :=
  ws ++ List.replicate (n - ws.length) 0

/-- One iteration of the `xorHexStrings` accumulation loop: parse the next
operand, zero-pad the shorter word list, and XOR word-wise.  The significant
length of the accumulator (hence of the first operand) is kept. -/
def xorStep (acc : WordArray) (s : String) : WordArray :=
  let next := hexParse s
  let n := max acc.words.length next.words.length
  { words := List.zipWith (· ^^^ ·) (padWords acc.words n) (padWords next.words n),
    sigNibbles := acc.sigNibbles }

/-- `xorHexStrings`: `[]` yields `""`, a single operand is returned directly,
otherwise the operands are parsed and XOR-ed word-wise and the accumulator is
rendered back to (lowercase) hex. -/
def xorHexStrings (hexStrings : List String) : String :=
  match hexStrings with
  | [] => ""
  | [s] => s
  | s :: rest => waToHex (rest.foldl xorStep (hexParse s))

/-! ## Specification-level XOR -/

/-- Byte-wise XOR of two byte sequences (the mathematical XOR the
specification speaks about). -/
def xorBytes (a b : List Nat) : List Nat := List.zipWith (· ^^^ ·) a b

/-! ## Bit-level facts -/

theorem xor_mod_two_pow (a b n : Nat) :
    (a ^^^ b) % 2 ^ n = (a % 2 ^ n) ^^^ (b % 2 ^ n) := by
  apply Nat.eq_of_testBit_eq
  intro i
  simp only [Nat.testBit_mod_two_pow, Nat.testBit_xor]
  cases h : decide (i < n) <;> simp

theorem xor_shiftRight (a b n : Nat) :
    (a ^^^ b) >>> n = (a >>> n) ^^^ (b >>> n) := by
  apply Nat.eq_of_testBit_eq
  intro i
  simp [Nat.testBit_shiftRight]

/-- XOR distributes over base-`2^k` composition with a small low part. -/
theorem xor_mul_pow_add {k x y c d : Nat} (hc : c < 2 ^ k) (hd : d < 2 ^ k) :
    (2 ^ k * x + c) ^^^ (2 ^ k * y + d) = 2 ^ k * (x ^^^ y) + (c ^^^ d) := by
  have hmod : ((2 ^ k * x + c) ^^^ (2 ^ k * y + d)) % 2 ^ k = c ^^^ d := by
    rw [xor_mod_two_pow]
    rw [Nat.mul_add_mod, Nat.mul_add_mod, Nat.mod_eq_of_lt hc, Nat.mod_eq_of_lt hd]
  have hdiv : ((2 ^ k * x + c) ^^^ (2 ^ k * y + d)) / 2 ^ k = x ^^^ y := by
    have h1 : (2 ^ k * x + c) >>> k = x := by
      rw [Nat.shiftRight_eq_div_pow, Nat.mul_add_div (Nat.two_pow_pos k),
        Nat.div_eq_of_lt hc, Nat.add_zero]
    have h2 : (2 ^ k * y + d) >>> k = y := by
      rw [Nat.shiftRight_eq_div_pow, Nat.mul_add_div (Nat.two_pow_pos k),
        Nat.div_eq_of_lt hd, Nat.add_zero]
    have := xor_shiftRight (2 ^ k * x + c) (2 ^ k * y + d) k
    rw [h1, h2] at this
    rw [← Nat.shiftRight_eq_div_pow, this]
  conv_lhs => rw [← Nat.div_add_mod ((2 ^ k * x + c) ^^^ (2 ^ k * y + d)) (2 ^ k)]
  rw [hmod, hdiv]

theorem xor_lt_two_pow {a b n : Nat} (ha : a < 2 ^ n) (hb : b < 2 ^ n) :
    a ^^^ b < 2 ^ n := by
  have h := xor_mod_two_pow a b n
  rw [Nat.mod_eq_of_lt ha, Nat.mod_eq_of_lt hb] at h
  rw [← h]
  exact Nat.mod_lt _ (Nat.two_pow_pos n)

/-- `word4` packs and XOR commute, byte-wise. -/
theorem word4_xor {a b c d a' b' c' d' : Nat}
    (ha : a < 256) (hb : b < 256) (hc : c < 256) (hd : d < 256)
    (ha' : a' < 256) (hb' : b' < 256) (hc' : c' < 256) (hd' : d' < 256) :
    word4 a b c d ^^^ word4 a' b' c' d' =
      word4 (a ^^^ a') (b ^^^ b') (c ^^^ c') (d ^^^ d') := by
  have e256 : (256 : Nat) = 2 ^ 8 := by norm_num
  have h2 : ∀ x y : Nat, x < 256 → y < 256 → x ^^^ y < 256 := by
    intro x y hx hy
    rw [e256] at hx hy ⊢
    exact xor_lt_two_pow hx hy
  unfold word4
  have step : ∀ X Y x y : Nat, x < 256 → y < 256 →
      (X * 256 + x) ^^^ (Y * 256 + y) = (X ^^^ Y) * 256 + (x ^^^ y) := by
    intro X Y x y hx hy
    rw [e256] at hx hy
    have h := xor_mul_pow_add (k := 8) (x := X) (y := Y) hx hy
    rw [show X * 256 = 2 ^ 8 * X by ring, show Y * 256 = 2 ^ 8 * Y by ring, h,
      show 2 ^ 8 * (X ^^^ Y) = (X ^^^ Y) * 256 by ring]
  rw [step _ _ _ _ hd hd', step _ _ _ _ hc hc', step _ _ _ _ hb hb']

theorem wordBytes_word4 {a b c d : Nat}
    (ha : a < 256) (hb : b < 256) (hc : c < 256) (hd : d < 256) :
    wordBytes (word4 a b c d) = [a, b, c, d] := by
  have h255 : (255 : Nat) = 2 ^ 8 - 1 := by norm_num
  simp only [wordBytes, word4, h255, Nat.and_pow_two_sub_one_eq_mod,
    Nat.shiftRight_eq_div_pow, List.cons.injEq, and_true]
  norm_num
  omega

theorem lt256_0 : (0 : Nat) < 256 := by norm_num

theorem bytesToWords_zipWith :
    ∀ (A B : List Nat), A.length = B.length →
      (∀ x ∈ A, x < 256) → (∀ x ∈ B, x < 256) →
      List.zipWith (· ^^^ ·) (bytesToWords A) (bytesToWords B) =
        bytesToWords (xorBytes A B) := by
  intro A
  induction A using bytesToWords.induct with
  | case1 =>
    intro B hlen _ _
    cases B with
    | nil => rfl
    | cons b B' => simp at hlen
  | case2 a =>
    intro B hlen hA hB
    match B, hlen with
    | [b], _ =>
      have h := word4_xor (hA a (by simp)) lt256_0 lt256_0 lt256_0
        (hB b (by simp)) lt256_0 lt256_0 lt256_0
      simp [bytesToWords, xorBytes, h]
  | case3 a b =>
    intro B hlen hA hB
    match B, hlen with
    | [a', b'], _ =>
      have h := word4_xor (hA a (by simp)) (hA b (by simp)) lt256_0 lt256_0
        (hB a' (by simp)) (hB b' (by simp)) lt256_0 lt256_0
      simp [bytesToWords, xorBytes, h]
  | case4 a b c =>
    intro B hlen hA hB
    match B, hlen with
    | [a', b', c'], _ =>
      have h := word4_xor (hA a (by simp)) (hA b (by simp)) (hA c (by simp)) lt256_0
        (hB a' (by simp)) (hB b' (by simp)) (hB c' (by simp)) lt256_0
      simp [bytesToWords, xorBytes, h]
  | case5 a b c d t ih =>
    intro B hlen hA hB
    match B, hlen with
    | a' :: b' :: c' :: d' :: t', hlen =>
      have hw := word4_xor (hA a (by simp)) (hA b (by simp)) (hA c (by simp))
        (hA d (by simp)) (hB a' (by simp)) (hB b' (by simp)) (hB c' (by simp))
        (hB d' (by simp))
      have hlen' : t.length = t'.length := by simpa using hlen
      have ih' := ih t' hlen' (fun x hx => hA x (by simp [hx]))
        (fun x hx => hB x (by simp [hx]))
      simp only [bytesToWords, xorBytes, List.zipWith_cons_cons, hw]
      rw [show xorBytes t t' = List.zipWith (· ^^^ ·) t t' from rfl] at ih'
      simp [ih']

theorem wordsToBytes_bytesToWords :
    ∀ (C : List Nat), (∀ x ∈ C, x < 256) →
      wordsToBytes (bytesToWords C) C.length = C := by
  intro C
  induction C using bytesToWords.induct with
  | case1 => intro _; rfl
  | case2 a =>
    intro hC
    have hw := wordBytes_word4 (hC a (by simp)) lt256_0 lt256_0 lt256_0
    simp [bytesToWords, wordsToBytes, hw]
  | case3 a b =>
    intro hC
    have hw := wordBytes_word4 (hC a (by simp)) (hC b (by simp)) lt256_0 lt256_0
    simp [bytesToWords, wordsToBytes, hw]
  | case4 a b c =>
    intro hC
    have hw := wordBytes_word4 (hC a (by simp)) (hC b (by simp)) (hC c (by simp)) lt256_0
    simp [bytesToWords, wordsToBytes, hw]
  | case5 a b c d t ih =>
    intro hC
    have hw := wordBytes_word4 (hC a (by simp)) (hC b (by simp)) (hC c (by simp))
      (hC d (by simp))
    have ih' := ih (fun x hx => hC x (by simp [hx]))
    simp only [bytesToWords, List.length_cons]
    rw [show t.length + 1 + 1 + 1 + 1 = (t.length + 3) + 1 by omega]
    simp only [wordsToBytes, hw]
    rw [show t.length + 3 + 1 - 4 = t.length by omega, ih']
    simp

/-! ## Facts about `hexBytes`, `bytesToWords` and `xorHexStrings` -/

theorem length_data (s : String) : s.length = s.data.length := by
  cases s; rfl

theorem pairsToBytes_length :
    ∀ l : List Nat, (pairsToBytes l).length = (l.length + 1) / 2 := by
  intro l
  induction l using pairsToBytes.induct with
  | case1 => rfl
  | case2 a => simp [pairsToBytes]
  | case3 a b t ih => simp [pairsToBytes, ih]; omega

theorem pairsToBytes_lt_256 :
    ∀ l : List Nat, (∀ x ∈ l, x < 16) → ∀ b ∈ pairsToBytes l, b < 256 := by
  intro l
  induction l using pairsToBytes.induct with
  | case1 => intro _ b hb; simp [pairsToBytes] at hb
  | case2 a =>
    intro h b hb
    simp [pairsToBytes] at hb
    subst hb
    have := h b (by simp)
    omega
  | case3 a b t ih =>
    intro h x hx
    simp only [pairsToBytes, List.mem_cons] at hx
    rcases hx with rfl | hx
    · have h1 := h a (by simp)
      have h2 := h b (by simp)
      omega
    · exact ih (fun y hy => h y (by simp [hy])) x hx

theorem hexBytes_length (s : String) : (hexBytes s).length = (s.length + 1) / 2 := by
  rw [hexBytes, pairsToBytes_length, List.length_map, length_data]

theorem hexBytes_lt_256 (s : String) (h : IsHexStr s) : ∀ b ∈ hexBytes s, b < 256 := by
  apply pairsToBytes_lt_256
  intro x hx
  simp only [List.mem_map] at hx
  obtain ⟨c, hc, rfl⟩ := hx
  exact hexVal_lt_16 c (h c hc)

theorem bytesToWords_length :
    ∀ C : List Nat, (bytesToWords C).length = (C.length + 3) / 4 := by
  intro C
  induction C using bytesToWords.induct with
  | case1 => rfl
  | case2 a => simp [bytesToWords]
  | case3 a b => simp [bytesToWords]
  | case4 a b c => simp [bytesToWords]
  | case5 a b c d t ih => simp [bytesToWords, ih]; omega

theorem padWords_self (ws : List Nat) : padWords ws ws.length = ws := by
  simp [padWords]

theorem xorBytes_length (A B : List Nat) :
    (xorBytes A B).length = min A.length B.length := by
  simp [xorBytes]

theorem xorBytes_lt_256 {A B : List Nat} (hA : ∀ x ∈ A, x < 256)
    (hB : ∀ x ∈ B, x < 256) : ∀ x ∈ xorBytes A B, x < 256 := by
  intro x hx
  simp only [xorBytes, List.mem_iff_getElem] at hx
  obtain ⟨i, hi, rfl⟩ := hx
  simp only [List.length_zipWith, lt_min_iff] at hi
  rw [List.getElem_zipWith]
  have e256 : (256 : Nat) = 2 ^ 8 := by norm_num
  rw [e256]
  exact xor_lt_two_pow (by rw [← e256]; exact hA _ (List.getElem_mem _))
    (by rw [← e256]; exact hB _ (List.getElem_mem _))

/-- The accumulator invariant of the `xorHexStrings` loop: starting from the
word array of a byte sequence `D` rendered over `2·|D|` nibbles, folding
`xorStep` over further operands of the same byte length XORs the byte
sequences. -/
theorem foldl_xorStep_eq :
    ∀ (ss : List String) (D : List Nat), (∀ b ∈ D, b < 256) →
      (∀ s ∈ ss, IsHexStr s ∧ s.length = 2 * D.length) →
      ss.foldl xorStep ⟨bytesToWords D, 2 * D.length⟩ =
        ⟨bytesToWords (ss.foldl (fun A s => xorBytes A (hexBytes s)) D),
          2 * D.length⟩ := by
  intro ss
  induction ss with
  | nil => intro D _ _; rfl
  | cons s ss ih =>
    intro D hD hss
    obtain ⟨hhex, hlen⟩ := hss s (by simp)
    have hbl : (hexBytes s).length = D.length := by
      rw [hexBytes_length, hlen]; omega
    have hwl : (bytesToWords (hexBytes s)).length = (bytesToWords D).length := by
      rw [bytesToWords_length, bytesToWords_length, hbl]
    have hstep : xorStep ⟨bytesToWords D, 2 * D.length⟩ s =
        ⟨bytesToWords (xorBytes D (hexBytes s)), 2 * D.length⟩ := by
      simp only [xorStep, hexParse, hwl, max_self, padWords_self]
      rw [← hwl, padWords_self]
      rw [bytesToWords_zipWith D (hexBytes s) hbl.symm hD (hexBytes_lt_256 s hhex)]
    simp only [List.foldl_cons, hstep]
    have hlen' : (xorBytes D (hexBytes s)).length = D.length := by
      rw [xorBytes_length, hbl]; omega
    rw [show (2 * D.length) = 2 * (xorBytes D (hexBytes s)).length by rw [hlen']]
    exact ih _ (xorBytes_lt_256 hD (hexBytes_lt_256 s hhex))
      (fun t ht => by
        obtain ⟨h1, h2⟩ := hss t (by simp [ht])
        exact ⟨h1, by rw [h2, hlen']⟩)

theorem foldl_xorBytes_length :
    ∀ (ss : List String) (D : List Nat),
      (∀ t ∈ ss, (hexBytes t).length = D.length) →
      (ss.foldl (fun A t => xorBytes A (hexBytes t)) D).length = D.length := by
  intro ss
  induction ss with
  | nil => intro D _; rfl
  | cons s ss ih =>
    intro D h
    have h1 : (xorBytes D (hexBytes s)).length = D.length := by
      rw [xorBytes_length, h s (by simp)]; omega
    simp only [List.foldl_cons]
    rw [ih _ (fun t ht => by rw [h t (by simp [ht]), h1]), h1]

theorem foldl_xorBytes_lt_256 :
    ∀ (ss : List String) (D : List Nat), (∀ b ∈ D, b < 256) →
      (∀ t ∈ ss, IsHexStr t) →
      ∀ b ∈ ss.foldl (fun A t => xorBytes A (hexBytes t)) D, b < 256 := by
  intro ss
  induction ss with
  | nil => intro D hD _; exact hD
  | cons s ss ih =>
    intro D hD h
    simp only [List.foldl_cons]
    exact ih _ (xorBytes_lt_256 hD (hexBytes_lt_256 s (h s (by simp))))
      (fun t ht => h t (by simp [ht]))

/-- `xorHexStrings` on two or more equal-even-length hex operands is the
byte-wise XOR of the operands, rendered as lowercase hex. -/
theorem xorHexStrings_eq_xorBytes (s r : String) (rest : List String)
    (hs : IsHexStr s) (hall : ∀ t ∈ r :: rest, IsHexStr t ∧ t.length = s.length)
    (heven : 2 ∣ s.length) :
    xorHexStrings (s :: r :: rest) =
      bytesToHexLower ((r :: rest).foldl (fun A t => xorBytes A (hexBytes t))
        (hexBytes s)) := by
  obtain ⟨k, hk⟩ := heven
  have hblen : (hexBytes s).length = k := by rw [hexBytes_length, hk]; omega
  have hstart : hexParse s = ⟨bytesToWords (hexBytes s), 2 * (hexBytes s).length⟩ := by
    simp [hexParse, hblen, hk]
  have hfold := foldl_xorStep_eq (r :: rest) (hexBytes s) (hexBytes_lt_256 s hs)
    (fun t ht => by
      obtain ⟨h1, h2⟩ := hall t ht
      exact ⟨h1, by rw [h2, hk, hblen]⟩)
  have hflen : ((r :: rest).foldl (fun A t => xorBytes A (hexBytes t))
      (hexBytes s)).length = k := by
    rw [foldl_xorBytes_length _ _ (fun t ht => by
      obtain ⟨_, h2⟩ := hall t ht
      rw [hexBytes_length, h2, hk, hblen]
      omega), hblen]
  have hfbound := foldl_xorBytes_lt_256 (r :: rest) (hexBytes s)
    (hexBytes_lt_256 s hs) (fun t ht => (hall t ht).1)
  rw [show xorHexStrings (s :: r :: rest) =
    waToHex ((r :: rest).foldl xorStep (hexParse s)) from rfl]
  rw [hstart, hfold]
  rw [waToHex]
  have hcount : (2 * (hexBytes s).length + 1) / 2 =
      ((r :: rest).foldl (fun A t => xorBytes A (hexBytes t)) (hexBytes s)).length := by
    rw [hflen, hblen]; omega
  simp only [hcount]
  rw [wordsToBytes_bytesToWords _ hfbound]

/-- Two-operand case: `xorHexStrings [a, b]` on equal-even-length hex strings. -/
theorem xorHexStrings_pair (a b : String) (ha : IsHexStr a) (hb : IsHexStr b)
    (hlen : b.length = a.length) (heven : 2 ∣ a.length) :
    xorHexStrings [a, b] = bytesToHexLower (xorBytes (hexBytes a) (hexBytes b)) := by
  rw [xorHexStrings_eq_xorBytes a b [] ha (by simp [hb, hlen]) heven]
  rfl

/-! ## Case folding (JS `toUpperCase`) -/

/-- JS `String.prototype.toUpperCase`, restricted to the basic-latin
characters that occur in hex material. -/
def jsToUpper (s : String) : String := ⟨s.data.map Char.toUpper⟩

theorem upperHex_toUpper_fixed : ∀ c ∈ upperHexChars, c.toUpper = c := by decide

theorem hexVal_toUpper : ∀ c ∈ hexChars, hexVal c.toUpper = hexVal c := by decide

theorem toUpper_mem_upperHex : ∀ c ∈ hexChars, c.toUpper ∈ upperHexChars := by decide

theorem upperHex_mem_hexChars : ∀ c ∈ upperHexChars, c ∈ hexChars := by decide

theorem toUpper_hexDigitLower : ∀ d < 16, (hexDigitLower d).toUpper = hexDigitUpper d := by
  decide

theorem jsToUpper_of_upperHex (s : String) (h : ∀ c ∈ s.data, c ∈ upperHexChars) :
    jsToUpper s = s := by
  apply String.ext
  show s.data.map Char.toUpper = s.data
  calc s.data.map Char.toUpper
      = s.data.map id := List.map_congr_left
        (fun c hc => upperHex_toUpper_fixed c (h c hc))
    _ = s.data := List.map_id s.data

theorem hexBytes_jsToUpper (s : String) (h : IsHexStr s) :
    hexBytes (jsToUpper s) = hexBytes s := by
  simp only [hexBytes, jsToUpper]
  congr 1
  rw [List.map_map]
  exact List.map_congr_left (fun c hc => hexVal_toUpper c (h c hc))

theorem length_jsToUpper (s : String) : (jsToUpper s).length = s.length := by
  rw [length_data, length_data]
  simp [jsToUpper]

/-- `bytesToHexUpper` is the uppercase form of `bytesToHexLower`. -/
theorem jsToUpper_bytesToHexLower (bs : List Nat) (h : ∀ b ∈ bs, b < 256) :
    jsToUpper (bytesToHexLower bs) = bytesToHexUpper bs := by
  apply String.ext
  show ((bs.map byteHexLower).flatten).map Char.toUpper = (bs.map byteHexUpper).flatten
  rw [List.map_flatten, List.map_map]
  congr 1
  apply List.map_congr_left
  intro b hb
  have h16a : b / 16 < 16 := by have := h b hb; omega
  have h16b : b % 16 < 16 := by omega
  simp only [Function.comp, byteHexLower, byteHexUpper, List.map]
  rw [toUpper_hexDigitLower _ h16a, toUpper_hexDigitLower _ h16b]

theorem toUpper_hexDigitLower_all (n : Nat) :
    (hexDigitLower n).toUpper = hexDigitUpper n := by
  rcases Nat.lt_or_ge n 16 with h | h
  · exact toUpper_hexDigitLower n h
  · unfold hexDigitLower hexDigitUpper
    rw [List.getD_eq_default _ _ (by simpa using h), List.getD_eq_default _ _ (by simpa using h)]
    decide

/-- `bytesToHexUpper` is the uppercase form of `bytesToHexLower`
(unconditionally: out-of-range nibbles render as `'0'` in both). -/
theorem jsToUpper_bytesToHexLower_all (bs : List Nat) :
    jsToUpper (bytesToHexLower bs) = bytesToHexUpper bs := by
  apply String.ext
  show ((bs.map byteHexLower).flatten).map Char.toUpper = (bs.map byteHexUpper).flatten
  rw [List.map_flatten, List.map_map]
  congr 1
  apply List.map_congr_left
  intro b _
  simp only [Function.comp, byteHexLower, byteHexUpper, List.map]
  rw [toUpper_hexDigitLower_all, toUpper_hexDigitLower_all]

theorem bytesToHexLower_length (bs : List Nat) :
    (bytesToHexLower bs).length = 2 * bs.length := by
  rw [length_data]
  show ((bs.map byteHexLower).flatten).length = 2 * bs.length
  induction bs with
  | nil => rfl
  | cons b bs ih => simp only [List.map_cons, List.flatten_cons, List.length_append, ih,
      byteHexLower, List.length_cons, List.length_nil]; omega

theorem hexDigitLower_mem_hexChars (n : Nat) : hexDigitLower n ∈ hexChars := by
  rcases Nat.lt_or_ge n 16 with h | h
  · interval_cases n <;> decide
  · unfold hexDigitLower
    rw [List.getD_eq_default _ _ (by simpa using h)]
    decide

theorem bytesToHexLower_chars (bs : List Nat) : IsHexStr (bytesToHexLower bs) := by
  intro c hc
  simp only [bytesToHexLower, List.mem_flatten, List.mem_map] at hc
  obtain ⟨l, ⟨b, _, rfl⟩, hcl⟩ := hc
  simp only [byteHexLower, List.mem_cons, List.not_mem_nil, or_false] at hcl
  rcases hcl with rfl | rfl <;> exact hexDigitLower_mem_hexChars _

/-! ## JS string helpers -/

/-- JS `String.prototype.substring(a, b)`: clamps both arguments to the
string length and swaps them if out of order.  (Negative JS arguments clamp
to 0; the embedding's `Nat` subtraction at call sites models that clamp.) -/
def jsSubstring (s : String) (a b : Nat) : String :=
  let a' := min a s.length
  let b' := min b s.length
  ⟨(s.data.drop (min a' b')).take (max a' b' - min a' b')⟩

/-- JS one-argument `substring(a)`. -/
def jsSubstringFrom (s : String) (a : Nat) : String := jsSubstring s a s.length

/-- JS `String.prototype.padStart(n, c)`. -/
def padStart (s : String) (n : Nat) (c : Char) : String :=
  ⟨List.replicate (n - s.length) c ++ s.data⟩

/-- JS `String.prototype.padEnd(n, c)`. -/
def padEnd (s : String) (n : Nat) (c : Char) : String :=
  ⟨s.data ++ List.replicate (n - s.length) c⟩

theorem jsSubstring_zero (s : String) (n : Nat) :
    jsSubstring s 0 n = ⟨s.data.take n⟩ := by
  apply String.ext
  simp only [jsSubstring, Nat.zero_min, Nat.min_zero, Nat.zero_max, Nat.max_zero,
    List.drop_zero, Nat.sub_zero]
  rw [length_data, ← List.take_take, List.take_length]

theorem take_two_mul_flatten_byteHexLower :
    ∀ (l : List Nat) (k : Nat),
      ((l.map byteHexLower).flatten).take (2 * k) =
        ((l.take k).map byteHexLower).flatten := by
  intro l
  induction l with
  | nil => intro k; simp
  | cons b bs ih =>
    intro k
    cases k with
    | zero => simp
    | succ k =>
      simp only [List.map_cons, List.flatten_cons, List.take_succ_cons, byteHexLower]
      rw [show 2 * (k + 1) = (2 * k) + 1 + 1 by omega]
      simp only [List.cons_append, List.take_succ_cons, List.nil_append]
      rw [ih k]

/-! ## `calculateKcv` (`src/services/cryptoService.ts`) -/

/-- An external ECB-NoPadding block-cipher encryption: key bytes and data
bytes to optional ciphertext bytes (`none` models a thrown exception). -/
def Cipher := List Nat → List Nat → Option (List Nat)

/-- The `algorithm` parameter of `calculateKcv` (`'3DES' | 'AES'`). -/
inductive KcvAlgorithm where
  | des3
  | aes
  deriving DecidableEq, Repr

/-- The key actually used for the KCV: an 8-byte (16 hex chars) 3DES
component is duplicated into a 16-byte key. -/
def kcvKeyFor (keyHex : String) (algorithm : KcvAlgorithm) : String :=
  if algorithm = .des3 ∧ keyHex.length = 16 then keyHex ++ keyHex else keyHex

/-- The zero-block encryption selected by `calculateKcv`: 3DES encrypts the
8-byte zero block, AES the 16-byte zero block. -/
def kcvEncrypt (tdes aes : Cipher) (algorithm : KcvAlgorithm)
    (keyForKcv : String) : Option (List Nat) :=
  match algorithm with
  | .des3 => tdes (hexBytes keyForKcv) (hexBytes "0000000000000000")
  | .aes => aes (hexBytes keyForKcv) (hexBytes "00000000000000000000000000000000")

/-- `calculateKcv`: empty key yields `""`, a thrown encryption yields
`"Error"`, otherwise the first 6 hex chars of the ciphertext, uppercased. -/
def calculateKcv (tdes aes : Cipher) (keyHex : String)
    (algorithm : KcvAlgorithm) : String :=
  if keyHex = "" then ""
  else
    match kcvEncrypt tdes aes algorithm (kcvKeyFor keyHex algorithm) with
    | none => "Error"
    | some ct => jsToUpper (jsSubstring (bytesToHexLower ct) 0 6)

theorem kcv_of_some (tdes aes : Cipher) (keyHex : String) (alg : KcvAlgorithm)
    (hne : keyHex ≠ "") (ct : List Nat)
    (henc : kcvEncrypt tdes aes alg (kcvKeyFor keyHex alg) = some ct) :
    calculateKcv tdes aes keyHex alg = bytesToHexUpper (ct.take 3) := by
  unfold calculateKcv
  rw [if_neg hne, henc]
  show jsToUpper (jsSubstring (bytesToHexLower ct) 0 6) = _
  rw [jsSubstring_zero]
  have h6 : (⟨(bytesToHexLower ct).data.take 6⟩ : String) = bytesToHexLower (ct.take 3) := by
    apply String.ext
    show ((ct.map byteHexLower).flatten).take 6 = ((ct.take 3).map byteHexLower).flatten
    rw [show (6 : Nat) = 2 * 3 by norm_num, take_two_mul_flatten_byteHexLower]
  rw [h6, jsToUpper_bytesToHexLower_all]

theorem hexBytes_zero8 : hexBytes "0000000000000000" = List.replicate 8 0 := by decide

theorem hexBytes_zero16 :
    hexBytes "00000000000000000000000000000000" = List.replicate 16 0 := by decide

/-- C2.  For every key accepted by `calculateKcv`, the result is the first
3 bytes (6 uppercase hex chars) of the ECB-NoPadding encryption of a single
zero block under the key: an 8-byte zero block for 3DES and a 16-byte zero
block for AES, and for 3DES a key of exactly 16 hex chars is concatenated
with itself before use. -/
theorem kcv_first_three_bytes_of_zero_block (tdes aes : Cipher) (keyHex : String)
    (hne : keyHex ≠ "") (ct3 ctA : List Nat)
    (h3 : tdes (hexBytes (if keyHex.length = 16 then keyHex ++ keyHex else keyHex))
      (List.replicate 8 0) = some ct3)
    (hA : aes (hexBytes keyHex) (List.replicate 16 0) = some ctA) :
    calculateKcv tdes aes keyHex .des3 = bytesToHexUpper (ct3.take 3) ∧
    calculateKcv tdes aes keyHex .aes = bytesToHexUpper (ctA.take 3) := by
  constructor
  · apply kcv_of_some tdes aes keyHex .des3 hne ct3
    show tdes (hexBytes (kcvKeyFor keyHex .des3)) (hexBytes "0000000000000000") = some ct3
    rw [hexBytes_zero8]
    have hk : kcvKeyFor keyHex .des3 =
        (if keyHex.length = 16 then keyHex ++ keyHex else keyHex) := by
      unfold kcvKeyFor
      simp
    rw [hk]
    exact h3
  · apply kcv_of_some tdes aes keyHex .aes hne ctA
    show aes (hexBytes (kcvKeyFor keyHex .aes)) (hexBytes "00000000000000000000000000000000")
      = some ctA
    rw [hexBytes_zero16]
    have hk : kcvKeyFor keyHex .aes = keyHex := by
      unfold kcvKeyFor
      simp
    rw [hk]
    exact hA

/-- A trivial concrete cipher used to instantiate witnesses: encrypts
everything to a zero block of the same length. -/
def zeroCipher : Cipher := fun _ d => some (d.map (fun _ => 0))

/-- Witness for C2 at a concrete 16-hex-char key and the `zeroCipher`. -/
theorem kcv_first_three_bytes_of_zero_block_witness :
    ("0123456789ABCDEF" : String) ≠ "" ∧
    zeroCipher (hexBytes (if ("0123456789ABCDEF" : String).length = 16 then
      "0123456789ABCDEF" ++ "0123456789ABCDEF" else "0123456789ABCDEF"))
      (List.replicate 8 0) = some (List.replicate 8 0) ∧
    zeroCipher (hexBytes "0123456789ABCDEF") (List.replicate 16 0) =
      some (List.replicate 16 0) ∧
    (calculateKcv zeroCipher zeroCipher "0123456789ABCDEF" .des3 =
        bytesToHexUpper ((List.replicate 8 0).take 3) ∧
      calculateKcv zeroCipher zeroCipher "0123456789ABCDEF" .aes =
        bytesToHexUpper ((List.replicate 16 0).take 3)) :=
  ⟨by decide, by decide, by decide,
    kcv_first_three_bytes_of_zero_block zeroCipher zeroCipher "0123456789ABCDEF"
      (by decide) (List.replicate 8 0) (List.replicate 16 0) (by decide) (by decide)⟩

/-- C10.  `calculateKcv` never raises: it returns `""` exactly for the empty
key, `"Error"` exactly when the underlying encryption throws, and otherwise a
6-character uppercase-hex KCV, so failure is detectable only through these
sentinel strings. -/
theorem kcv_sentinel_trichotomy (tdes aes : Cipher) (keyHex : String)
    (alg : KcvAlgorithm)
    (hwf : ∀ ct, kcvEncrypt tdes aes alg (kcvKeyFor keyHex alg) = some ct →
      3 ≤ ct.length) :
    (calculateKcv tdes aes keyHex alg = "" ↔ keyHex = "") ∧
    (calculateKcv tdes aes keyHex alg = "Error" ↔
      keyHex ≠ "" ∧ kcvEncrypt tdes aes alg (kcvKeyFor keyHex alg) = none) ∧
    (keyHex ≠ "" → kcvEncrypt tdes aes alg (kcvKeyFor keyHex alg) ≠ none →
      (calculateKcv tdes aes keyHex alg).length = 6 ∧
      (calculateKcv tdes aes keyHex alg).data.all
        (fun c => decide (c ∈ upperHexChars)) = true) := by
  by_cases hk : keyHex = ""
  · subst hk
    have hr : calculateKcv tdes aes "" alg = "" := by
      unfold calculateKcv
      rw [if_pos rfl]
    refine ⟨by simp [hr], ⟨?_, ?_⟩, fun h _ => absurd rfl h⟩
    · intro h
      rw [hr] at h
      exact absurd h (by decide)
    · rintro ⟨h, -⟩
      exact absurd rfl h
  · cases henc : kcvEncrypt tdes aes alg (kcvKeyFor keyHex alg) with
    | none =>
      have hr : calculateKcv tdes aes keyHex alg = "Error" := by
        unfold calculateKcv
        rw [if_neg hk, henc]
      refine ⟨⟨?_, fun h => absurd h hk⟩, ⟨fun _ => ⟨hk, rfl⟩, fun _ => hr⟩,
        fun _ hne => absurd rfl hne⟩
      intro h
      rw [hr] at h
      exact absurd h (by decide)
    | some ct =>
      have hct3 := hwf ct henc
      have hr : calculateKcv tdes aes keyHex alg =
          jsToUpper (jsSubstring (bytesToHexLower ct) 0 6) := by
        unfold calculateKcv
        rw [if_neg hk, henc]
      have hlen6 : (calculateKcv tdes aes keyHex alg).length = 6 := by
        rw [hr, length_jsToUpper, jsSubstring_zero, length_data]
        show ((bytesToHexLower ct).data.take 6).length = 6
        rw [List.length_take, ← length_data, bytesToHexLower_length]
        omega
      refine ⟨?_, ?_, fun _ _ => ⟨hlen6, ?_⟩⟩
      · constructor
        · intro h
          rw [h] at hlen6
          simp at hlen6
        · intro h
          exact absurd h hk
      · constructor
        · intro h
          rw [h] at hlen6
          exact absurd hlen6 (by decide)
        · rintro ⟨-, h⟩
          cases h
      · rw [hr]
        simp only [List.all_eq_true, decide_eq_true_eq]
        intro c hc
        simp only [jsToUpper] at hc
        rw [jsSubstring_zero] at hc
        simp only [List.mem_map] at hc
        obtain ⟨c', hc', rfl⟩ := hc
        have hmem : c' ∈ (bytesToHexLower ct).data := List.take_subset 6 _ hc'
        exact toUpper_mem_upperHex c' (bytesToHexLower_chars ct c' hmem)

/-- Witness for C10 at a concrete key and the `zeroCipher`. -/
theorem kcv_sentinel_trichotomy_witness :
    (calculateKcv zeroCipher zeroCipher "00112233445566778899AABBCCDDEEFF" .aes = "" ↔
      ("00112233445566778899AABBCCDDEEFF" : String) = "") ∧
    (calculateKcv zeroCipher zeroCipher "00112233445566778899AABBCCDDEEFF" .aes = "Error" ↔
      ("00112233445566778899AABBCCDDEEFF" : String) ≠ "" ∧
      kcvEncrypt zeroCipher zeroCipher .aes
        (kcvKeyFor "00112233445566778899AABBCCDDEEFF" .aes) = none) ∧
    (("00112233445566778899AABBCCDDEEFF" : String) ≠ "" →
      kcvEncrypt zeroCipher zeroCipher .aes
        (kcvKeyFor "00112233445566778899AABBCCDDEEFF" .aes) ≠ none →
      (calculateKcv zeroCipher zeroCipher "00112233445566778899AABBCCDDEEFF" .aes).length = 6 ∧
      (calculateKcv zeroCipher zeroCipher "00112233445566778899AABBCCDDEEFF" .aes).data.all
        (fun c => decide (c ∈ upperHexChars)) = true) :=
  kcv_sentinel_trichotomy zeroCipher zeroCipher "00112233445566778899AABBCCDDEEFF" .aes
    (fun ct h => by
      rw [show ct = List.map (fun _ => 0)
        (hexBytes "00000000000000000000000000000000") from (Option.some.inj h).symm]
      decide)

/-! ## Claim C7: behaviour of `xorHexStrings` on mismatched lengths -/

theorem foldl_xorStep_sigNibbles :
    ∀ (ss : List String) (acc : WordArray),
      (ss.foldl xorStep acc).sigNibbles = acc.sigNibbles := by
  intro ss
  induction ss with
  | nil => intro acc; rfl
  | cons s ss ih => intro acc; rw [List.foldl_cons, ih]; rfl

theorem wordsToBytes_length :
    ∀ (ws : List Nat) (n : Nat), (wordsToBytes ws n).length = n := by
  intro ws
  induction ws with
  | nil =>
    intro n
    cases n with
    | zero => rfl
    | succ n => simp [wordsToBytes]
  | cons w ws ih =>
    intro n
    cases n with
    | zero => rfl
    | succ n =>
      simp only [wordsToBytes, List.length_append, List.length_take, ih, wordBytes,
        List.length_cons, List.length_nil]
      omega

/-- C7 counterexample.  On operands of different byte length `xorHexStrings`
returns a result (the first operand's length, zero-extended XOR) instead of
failing: its only failure channel is the `"Error"` sentinel, and the result
is not that sentinel. -/
theorem xor_length_mismatch_counterexample :
    xorHexStrings ["00", "0000"] = "00" ∧ ("00" : String) ≠ "Error" := by
  constructor
  · decide
  · decide

/-- C7 amended.  On two or more operands — in particular operands of
differing byte length — `xorHexStrings` never fails: it returns a hex string
whose length is the first operand's length rounded up to a whole byte
(shorter operands are implicitly zero-extended at word granularity). -/
theorem xor_length_mismatch_returns_result (a r : String) (rest : List String) :
    (xorHexStrings (a :: r :: rest)).length = 2 * ((a.length + 1) / 2) ∧
    xorHexStrings (a :: r :: rest) ≠ "Error" ∧
    IsHexStr (xorHexStrings (a :: r :: rest)) := by
  have hx : xorHexStrings (a :: r :: rest) =
      waToHex ((r :: rest).foldl xorStep (hexParse a)) := rfl
  have hsig : ((r :: rest).foldl xorStep (hexParse a)).sigNibbles = a.length :=
    foldl_xorStep_sigNibbles _ _
  have hlen : (xorHexStrings (a :: r :: rest)).length = 2 * ((a.length + 1) / 2) := by
    rw [hx, waToHex, bytesToHexLower_length, wordsToBytes_length, hsig]
  refine ⟨hlen, ?_, ?_⟩
  · intro h
    rw [h] at hlen
    have : (5 : Nat) = 2 * ((a.length + 1) / 2) := by
      rw [show ("Error" : String).length = 5 from by decide] at hlen
      exact hlen
    omega
  · rw [hx, waToHex]
    exact bytesToHexLower_chars _

/-! ## Key assembly (`src/components/KeyAssembler.tsx`, `constants.ts`) -/

theorem jsToUpper_append (a b : String) :
    jsToUpper (a ++ b) = jsToUpper a ++ jsToUpper b := by
  apply String.ext
  show (a.data ++ b.data).map Char.toUpper = _
  simp [jsToUpper]

theorem jsToUpper_eq_empty_iff (s : String) : jsToUpper s = "" ↔ s = "" := by
  constructor
  · intro h
    have : s.data.map Char.toUpper = [] := congrArg String.data h
    apply String.ext
    simpa using this
  · rintro rfl
    rfl

/-- `calculateKcv` is insensitive to the case of its hex key. -/
theorem calculateKcv_jsToUpper (tdes aes : Cipher) (s : String)
    (alg : KcvAlgorithm) (h : IsHexStr s) :
    calculateKcv tdes aes (jsToUpper s) alg = calculateKcv tdes aes s alg := by
  by_cases hs : s = ""
  · subst hs; rfl
  · have hkey : hexBytes (kcvKeyFor (jsToUpper s) alg) = hexBytes (kcvKeyFor s alg) := by
      unfold kcvKeyFor
      rw [length_jsToUpper]
      split
      · rw [← jsToUpper_append]
        apply hexBytes_jsToUpper
        intro c hc
        have hc' : c ∈ s.data ++ s.data := by simpa using hc
        rcases List.mem_append.mp hc' with h' | h' <;> exact h c h'
      · exact hexBytes_jsToUpper s h
    have henc : kcvEncrypt tdes aes alg (kcvKeyFor (jsToUpper s) alg) =
        kcvEncrypt tdes aes alg (kcvKeyFor s alg) := by
      unfold kcvEncrypt
      cases alg <;> rw [hkey]
    unfold calculateKcv
    rw [if_neg (fun hc => hs ((jsToUpper_eq_empty_iff s).mp hc)), if_neg hs, henc]

/-- `constants.ts` `AlgorithmConfig`. -/
structure AlgorithmConfig where
  name : String
  keyLengthBytes : Nat
  componentCount : Nat
  componentLengthBytes : Nat
  kcvType : KcvAlgorithm
  deriving DecidableEq, Repr

/-- `constants.ts` `KEY_ALGORITHMS`. -/
def KEY_ALGORITHMS : List AlgorithmConfig := [
  ⟨"AES-128 (Single Component)", 16, 1, 16, .aes⟩,
  ⟨"AES-128 (2 Parts, XORed)", 16, 2, 16, .aes⟩,
  ⟨"AES-128 (3 Parts, XORed)", 16, 3, 16, .aes⟩,
  ⟨"AES-192 (Single Component)", 24, 1, 24, .aes⟩,
  ⟨"AES-192 (2 Parts, XORed)", 24, 2, 24, .aes⟩,
  ⟨"AES-192 (3 Parts, XORed)", 24, 3, 24, .aes⟩,
  ⟨"AES-256 (Single Component)", 32, 1, 32, .aes⟩,
  ⟨"AES-256 (2 Parts, XORed)", 32, 2, 32, .aes⟩,
  ⟨"AES-256 (3 Parts, XORed)", 32, 3, 32, .aes⟩,
  ⟨"3DES 2-Key (Single Component)", 16, 1, 16, .des3⟩,
  ⟨"3DES 2-Key (2 Parts, XORed)", 16, 2, 16, .des3⟩,
  ⟨"3DES 2-Key (3 Parts, XORed)", 16, 3, 16, .des3⟩,
  ⟨"3DES 3-Key (Single Component)", 24, 1, 24, .des3⟩,
  ⟨"3DES 3-Key (2 Parts, XORed)", 24, 2, 24, .des3⟩,
  ⟨"3DES 3-Key (3 Parts, XORed)", 24, 3, 24, .des3⟩]

/-- The validation loop of `handleAssemble`: reads `componentInputs[i]` for
`i < componentCount`, rejects a wrong length, and collects the inputs.  A
missing entry is the JS `TypeError` on `undefined.length`. -/
def collectComponents (componentInputs : List String) (requiredLength : Nat) :
    Nat → Nat → Except String (List String)
  | 0, _ => .ok []
  | n + 1, i =>
    match componentInputs[i]? with
    | none => .error "TypeError"
    | some input =>
      if input.length ≠ requiredLength then
        .error "Component must be the required length."
      else
        match collectComponents componentInputs requiredLength n (i + 1) with
        | .error e => .error e
        | .ok rest => .ok (input :: rest)

/-- `handleAssemble` (`KeyAssembler.tsx`): validate the component inputs,
XOR them together when the profile has more than one part, check the
`'Error'` sentinel, and report the uppercased final key together with its
KCV (computed by `calculateKcv` on the pre-uppercase hex). -/
def handleAssemble (tdes aes : Cipher) (config : AlgorithmConfig)
    (componentInputs : List String) : Except String (String × String) :=
  match collectComponents componentInputs (config.componentLengthBytes * 2)
      config.componentCount 0 with
  | .error e => .error e
  | .ok componentsToProcess =>
    match (if config.componentCount > 1 then some (xorHexStrings componentsToProcess)
           else componentsToProcess[0]?) with
    | none => .error "TypeError"
    | some finalKeyHex =>
      if finalKeyHex = "Error" then
        .error "An error occurred during the XOR operation. Check component lengths."
      else
        .ok (jsToUpper finalKeyHex,
          calculateKcv tdes aes finalKeyHex config.kcvType)

/-- The final key the specification prescribes: the single component for a
one-part profile, otherwise the componentwise XOR of all the components,
rendered uppercase. -/
def specAssembledKey (config : AlgorithmConfig) (inputs : List String) : String :=
  if config.componentCount = 1 then inputs.getD 0 ""
  else bytesToHexUpper (inputs.tail.foldl (fun A t => xorBytes A (hexBytes t))
    (hexBytes (inputs.getD 0 "")))

theorem collectComponents_ok (inputs : List String) (req : Nat)
    (hall : ∀ c ∈ inputs, c.length = req) :
    ∀ (n i : Nat), n + i = inputs.length →
      collectComponents inputs req n i = .ok (inputs.drop i) := by
  intro n
  induction n with
  | zero =>
    intro i hi
    have : inputs.drop i = [] := List.drop_eq_nil_of_le (by omega)
    rw [this]
    rfl
  | succ n ih =>
    intro i hi
    have hilt : i < inputs.length := by omega
    have hget : inputs[i]? = some inputs[i] := List.getElem?_eq_getElem hilt
    have hlen : inputs[i].length = req := hall _ (List.getElem_mem hilt)
    show collectComponents inputs req (n + 1) i = _
    rw [collectComponents, hget]
    simp only [hlen, ne_eq, not_true_eq_false, if_neg, ite_false]
    rw [ih (i + 1) (by omega)]
    rw [List.drop_eq_getElem_cons hilt]

theorem config_facts : ∀ c ∈ KEY_ALGORITHMS,
    (c.componentCount = 1 ∨ c.componentCount = 2 ∨ c.componentCount = 3) ∧
    16 ≤ c.componentLengthBytes := by decide

/-- C5.  For every algorithm profile and component set of the profile's
count and component length: the assembled key is the single component
(`N = 1`) or the componentwise XOR of all components (`N ≥ 2`), rendered
uppercase, and the reported KCV is `calculateKcv` of that final assembled
key under the profile's `kcvType`. -/
theorem key_assembly_final_key_and_kcv (tdes aes : Cipher)
    (config : AlgorithmConfig) (hconfig : config ∈ KEY_ALGORITHMS)
    (inputs : List String) (hcount : inputs.length = config.componentCount)
    (hlen : ∀ c ∈ inputs, c.length = config.componentLengthBytes * 2)
    (hhex : ∀ c ∈ inputs, ∀ ch ∈ c.data, ch ∈ upperHexChars) :
    handleAssemble tdes aes config inputs =
      .ok (specAssembledKey config inputs,
        calculateKcv tdes aes (specAssembledKey config inputs) config.kcvType) := by
  obtain ⟨hcc, hclb⟩ := config_facts config hconfig
  have hishex : ∀ c ∈ inputs, IsHexStr c :=
    fun c hc ch hch => upperHex_mem_hexChars ch (hhex c hc ch hch)
  have hcollect := collectComponents_ok inputs (config.componentLengthBytes * 2)
    hlen config.componentCount 0 (by omega)
  rw [List.drop_zero] at hcollect
  unfold handleAssemble
  rw [hcollect]
  by_cases h1 : config.componentCount = 1
  · -- single component: returned unchanged (it is already uppercase)
    rw [h1] at hcount
    obtain ⟨c, rfl⟩ := List.length_eq_one.mp hcount
    · have hc0 : ([c])[0]? = some c := rfl
      simp only [h1, gt_iff_lt, lt_irrefl, if_false, ite_false, hc0]
      have hcErr : c ≠ "Error" := by
        intro hEq
        have := hlen c (by simp)
        rw [hEq] at this
        rw [show ("Error" : String).length = 5 from by decide] at this
        omega
      rw [if_neg hcErr]
      have hspec : specAssembledKey config [c] = c := by
        unfold specAssembledKey
        rw [if_pos h1]
        rfl
      rw [hspec]
      have hupc : jsToUpper c = c :=
        jsToUpper_of_upperHex c (hhex c (by simp))
      rw [hupc]
  · -- two or more components: XOR, uppercase, KCV of the XOR
    have h2 : 2 ≤ config.componentCount := by omega
    cases inputs with
    | nil => rw [← hcount] at h2; simp at h2
    | cons c0 tl =>
    cases tl with
    | nil => rw [← hcount] at h2; simp at h2
    | cons c1 rest =>
      have hgt : config.componentCount > 1 := by omega
      simp only [hgt, if_true, ite_true]
      have hx := xorHexStrings_eq_xorBytes c0 c1 rest (hishex c0 (by simp))
        (fun t ht => ⟨hishex t (by simp [ht]),
          by rw [hlen t (by simp [ht]), hlen c0 (by simp)]⟩)
        ⟨config.componentLengthBytes, by rw [hlen c0 (by simp)]; ring⟩
      set F := (c1 :: rest).foldl (fun A t => xorBytes A (hexBytes t)) (hexBytes c0)
        with hF
      have hxErr : xorHexStrings (c0 :: c1 :: rest) ≠ "Error" :=
        (xor_length_mismatch_returns_result c0 c1 rest).2.1
      rw [if_neg hxErr, hx]
      have hspec : specAssembledKey config (c0 :: c1 :: rest) = bytesToHexUpper F := by
        unfold specAssembledKey
        rw [if_neg h1]
        rfl
      rw [hspec, ← jsToUpper_bytesToHexLower_all F,
        calculateKcv_jsToUpper tdes aes (bytesToHexLower F) config.kcvType
          (bytesToHexLower_chars F)]

/-- Witness for C5: the AES-128 two-part profile with two concrete
components. -/
theorem key_assembly_final_key_and_kcv_witness :
    handleAssemble zeroCipher zeroCipher ⟨"AES-128 (2 Parts, XORed)", 16, 2, 16, .aes⟩
      ["11111111111111111111111111111111", "22222222222222222222222222222222"] =
    .ok (specAssembledKey ⟨"AES-128 (2 Parts, XORed)", 16, 2, 16, .aes⟩
        ["11111111111111111111111111111111", "22222222222222222222222222222222"],
      calculateKcv zeroCipher zeroCipher
        (specAssembledKey ⟨"AES-128 (2 Parts, XORed)", 16, 2, 16, .aes⟩
          ["11111111111111111111111111111111", "22222222222222222222222222222222"])
        KcvAlgorithm.aes) :=
  key_assembly_final_key_and_kcv zeroCipher zeroCipher
    ⟨"AES-128 (2 Parts, XORed)", 16, 2, 16, .aes⟩ (by decide)
    ["11111111111111111111111111111111", "22222222222222222222222222222222"]
    (by decide) (by decide) (by decide)

instance {ε α : Type} [DecidableEq ε] [DecidableEq α] : DecidableEq (Except ε α) :=
  fun x y =>
    match x, y with
    | .ok a, .ok b =>
      if h : a = b then isTrue (by rw [h]) else isFalse (fun he => by cases he; exact h rfl)
    | .error a, .error b =>
      if h : a = b then isTrue (by rw [h]) else isFalse (fun he => by cases he; exact h rfl)
    | .ok _, .error _ => isFalse (fun h => by cases h)
    | .error _, .ok _ => isFalse (fun h => by cases h)

/-! ## PIN blocks (`src/services/cryptoService.ts`) -/

/-- The `PinBlockFormat` enumeration of `types.ts`. -/
inductive PinBlockFormat where
  | iso0
  | iso3
  | iso4
  deriving DecidableEq, Repr

/-- Hex digits of `n`, most significant first, prepended to `acc`; `fuel`
bounds the recursion and any `fuel ≥ n` computes the digits exactly. -/
def natToHexCore : Nat → Nat → List Char → List Char
  | 0, _, acc => acc
  | fuel + 1, n, acc =>
    if n = 0 then acc
    else natToHexCore fuel (n / 16) (hexDigitLower (n % 16) :: acc)

/-- JS `Number`/`BigInt` `.toString(16)` for a nonnegative value: minimal
lowercase hex digits, `"0"` for zero. -/
def natToHexLower (n : Nat) : String :=
  if n = 0 then "0" else ⟨natToHexCore n n []⟩

/-- `generateClearPinBlock`: clear ISO-0 / ISO-3 PIN block.  `randomHex`
is the `generateRandomHex` collaborator (bytes requested ↦ hex string). -/
def generateClearPinBlock (randomHex : Nat → String) (pin pan : String)
    (format : PinBlockFormat) : Except String String :=
  if format = .iso4 then
    .error "ISO Format 4 generation requires a PEK and does not produce a simple clear block."
  else
    let pinLen := pin.length
    let pinLenHex := natToHexLower pinLen
    let pinPart : String :=
      if format = .iso0 then
        "0" ++ pinLenHex ++ pin ++ ⟨List.replicate (14 - pinLen) 'F'⟩
      else
        let randomPadding := jsSubstring (randomHex ((14 - pinLen + 1) / 2)) 0 (14 - pinLen)
        "3" ++ pinLenHex ++ pin ++ randomPadding
    let panDigits := jsSubstring pan (pan.length - 13) (pan.length - 1)
    let panPart := "0000" ++ panDigits
    let clearPinBlock := xorHexStrings [pinPart, panPart]
    if clearPinBlock = "Error" then .error "Failed to XOR PIN and PAN blocks."
    else .ok (jsToUpper clearPinBlock)

/-- ISO-4 plaintext PIN field (Block A):
`'4' || hex(len) || pin padded to 14 with 'A' || 16 random nibbles`, upper. -/
def iso4PinField (randomHex : Nat → String) (pin : String) : String :=
  jsToUpper ("4" ++ natToHexLower pin.length ++ padEnd pin 14 'A' ++ randomHex 8)

/-- ISO-4 plaintext PAN field (Block B): pad the PAN to at least 12 digits,
prefix `hex(len − 12)`, right-pad with `'0'` to 32 nibbles, upper. -/
def iso4PanField (pan : String) : String :=
  let panForBlock := if pan.length < 12 then padStart pan 12 '0' else pan
  let panLen := if pan.length < 12 then 12 else pan.length
  jsToUpper (padEnd (natToHexLower (panLen - 12) ++ panForBlock) 32 '0')

/-- `generatePinBlock`: ISO-4 uses the AES Encrypt-XOR-Encrypt scheme and
returns (plaintext PIN field, final encrypted block); ISO-0/3 encrypt the
clear block with 3DES.  `none` from a cipher models a thrown exception. -/
def generatePinBlock (tdes aes : Cipher) (randomHex : Nat → String)
    (pin pan pek : String) (format : PinBlockFormat) :
    Except String (String × String) :=
  if format = .iso4 then
    let pinField := iso4PinField randomHex pin
    let panField := iso4PanField pan
    match aes (hexBytes pek) (hexBytes pinField) with
    | none => .error "exception from AES encrypt"
    | some e1 =>
      let encryptedPinFieldHex := bytesToHexLower e1
      let xorResultHex := xorHexStrings [panField, encryptedPinFieldHex]
      if xorResultHex = "Error" then
        .error "Failed to XOR PAN field and encrypted PIN field."
      else
        match aes (hexBytes pek) (hexBytes xorResultHex) with
        | none => .error "exception from AES encrypt"
        | some fin => .ok (pinField, jsToUpper (bytesToHexLower fin))
  else
    match generateClearPinBlock randomHex pin pan format with
    | .error e => .error e
    | .ok clearPinBlock =>
      match tdes (hexBytes pek) (hexBytes clearPinBlock) with
      | none => .error "exception from 3DES encrypt"
      | some enc => .ok (clearPinBlock, jsToUpper (bytesToHexLower enc))

/-! ## Claim-side PIN-block formulas -/

/-- The pin field the claim describes for ISO-0:
`"0" || hex(len(PIN)) || PIN || 'F' × (14 − len(PIN))`. -/
def iso0PinField (pin : String) : String :=
  "0" ++ natToHexLower pin.length ++ pin ++ ⟨List.replicate (14 - pin.length) 'F'⟩

/-- The pan field the claim describes for ISO-0: `"0000"` followed by the 12
PAN digits immediately preceding the Luhn check digit. -/
def iso0PanField (pan : String) : String :=
  "0000" ++ ⟨(pan.data.take (pan.length - 1)).drop (pan.length - 13)⟩

/-- The specification's XOR of two hex fields: nibble-wise, uppercase,
defined only for fields of equal length. -/
def specHexXor (a b : String) : Option String :=
  if a.length = b.length then
    some ⟨List.zipWith (fun c d => hexDigitUpper (hexVal c ^^^ hexVal d)) a.data b.data⟩
  else none

theorem hexVal_hexDigitLower : ∀ d < 16, hexVal (hexDigitLower d) = d := by decide

theorem hexBytes_bytesToHexLower (bs : List Nat) (h : ∀ b ∈ bs, b < 256) :
    hexBytes (bytesToHexLower bs) = bs := by
  induction bs with
  | nil => rfl
  | cons b bs ih =>
    have hb := h b (by simp)
    have h1 : b / 16 < 16 := by omega
    have h2 : b % 16 < 16 := by omega
    show pairsToBytes (((b :: bs).map byteHexLower).flatten.map hexVal) = b :: bs
    simp only [List.map_cons, List.flatten_cons, List.map_append, byteHexLower, List.map]
    show pairsToBytes (hexVal (hexDigitLower (b / 16)) :: hexVal (hexDigitLower (b % 16)) ::
      ((bs.map byteHexLower).flatten.map hexVal)) = b :: bs
    rw [pairsToBytes, hexVal_hexDigitLower _ h1, hexVal_hexDigitLower _ h2]
    have ihh : pairsToBytes ((bs.map byteHexLower).flatten.map hexVal) = bs :=
      ih (fun x hx => h x (by simp [hx]))
    rw [ihh]
    congr 1
    omega

/-- The nibble-wise uppercase XOR of two equal-even-length hex fields agrees
with the byte-wise XOR rendered uppercase. -/
theorem specHexXor_eq_xorBytes (a b : String) (ha : IsHexStr a) (hb : IsHexStr b)
    (hlen : a.length = b.length) (heven : 2 ∣ a.length) :
    specHexXor a b = some (bytesToHexUpper (xorBytes (hexBytes a) (hexBytes b))) := by
  unfold specHexXor
  rw [if_pos hlen]
  congr 1
  apply String.ext
  show List.zipWith (fun c d => hexDigitUpper (hexVal c ^^^ hexVal d)) a.data b.data =
    ((xorBytes (hexBytes a) (hexBytes b)).map byteHexUpper).flatten
  have hz : List.zipWith (fun c d => hexDigitUpper (hexVal c ^^^ hexVal d)) a.data b.data =
      List.zipWith (fun x y => hexDigitUpper (x ^^^ y)) (a.data.map hexVal) (b.data.map hexVal) := by
    rw [List.zipWith_map]
  rw [hz]
  have hla : (a.data.map hexVal).length = (b.data.map hexVal).length := by
    simp only [List.length_map, ← length_data]
    exact hlen
  have hba : ∀ x ∈ a.data.map hexVal, x < 16 := by
    intro x hx
    obtain ⟨c, hc, rfl⟩ := List.mem_map.mp hx
    exact hexVal_lt_16 c (ha c hc)
  have hbb : ∀ x ∈ b.data.map hexVal, x < 16 := by
    intro x hx
    obtain ⟨c, hc, rfl⟩ := List.mem_map.mp hx
    exact hexVal_lt_16 c (hb c hc)
  have hev : 2 ∣ (a.data.map hexVal).length := by
    simp only [List.length_map, ← length_data]
    exact heven
  show List.zipWith (fun x y => hexDigitUpper (x ^^^ y)) (a.data.map hexVal) (b.data.map hexVal) =
    ((xorBytes (pairsToBytes (a.data.map hexVal)) (pairsToBytes (b.data.map hexVal))).map
      byteHexUpper).flatten
  generalize a.data.map hexVal = A at hla hba hev
  generalize b.data.map hexVal = B at hla hbb
  clear hz heven hlen ha hb
  induction A using pairsToBytes.induct generalizing B with
  | case1 =>
    cases B with
    | nil => rfl
    | cons x B' => simp at hla
  | case2 x =>
    exfalso
    simp at hev
  | case3 a1 a2 t ih =>
    match B, hla with
    | b1 :: b2 :: u, hla =>
      have ha1 := hba a1 (by simp)
      have ha2 := hba a2 (by simp)
      have hb1 := hbb b1 (by simp)
      have hb2 := hbb b2 (by simp)
      have e16 : (16 : Nat) = 2 ^ 4 := by norm_num
      have hbyte : (16 * a1 + a2) ^^^ (16 * b1 + b2) = 16 * (a1 ^^^ b1) + (a2 ^^^ b2) := by
        have h := xor_mul_pow_add (k := 4) (x := a1) (y := b1)
          (e16 ▸ ha2) (e16 ▸ hb2)
        rw [e16]
        exact h
      have hx1 : a1 ^^^ b1 < 16 := by
        rw [e16]
        exact xor_lt_two_pow (e16 ▸ ha1) (e16 ▸ hb1)
      have hx2 : a2 ^^^ b2 < 16 := by
        rw [e16]
        exact xor_lt_two_pow (e16 ▸ ha2) (e16 ▸ hb2)
      simp only [pairsToBytes, xorBytes, List.zipWith_cons_cons, List.map_cons,
        List.flatten_cons, byteHexUpper, hbyte]
      have hdiv : (16 * (a1 ^^^ b1) + (a2 ^^^ b2)) / 16 = a1 ^^^ b1 := by omega
      have hmod : (16 * (a1 ^^^ b1) + (a2 ^^^ b2)) % 16 = a2 ^^^ b2 := by omega
      rw [hdiv, hmod]
      have ih' := ih (fun x hx => hba x (by simp [hx]))
        (by simp only [List.length_cons] at hev; omega) u (by simpa using hla)
        (fun x hx => hbb x (by simp [hx]))
      rw [show xorBytes (pairsToBytes t) (pairsToBytes u) =
        List.zipWith (· ^^^ ·) (pairsToBytes t) (pairsToBytes u) from rfl] at ih'
      simp only [List.cons_append, List.nil_append]
      rw [← ih']

theorem natToHexLower_single (n : Nat) (h2 : n < 16) :
    natToHexLower n = ⟨[hexDigitLower n]⟩ := by
  interval_cases n <;> decide

theorem jsSubstring_drop_take (pan : String) (h13 : 13 ≤ pan.length) :
    jsSubstring pan (pan.length - 13) (pan.length - 1) =
      ⟨(pan.data.take (pan.length - 1)).drop (pan.length - 13)⟩ := by
  apply String.ext
  simp only [jsSubstring]
  rw [Nat.min_eq_left (by omega), Nat.min_eq_left (by omega)]
  rw [Nat.min_eq_left (by omega), Nat.max_eq_right (by omega)]
  rw [List.drop_take]

/-- C4 (amended to PANs of 13–19 digits).  The clear ISO-0 PIN block is the
uppercase XOR of the claim's `pinField` and `panField`; the first conjunct
is the code's value, the second identifies it with the specification's
nibble-wise XOR of the two fields. -/
theorem clear_iso0_pin_block (randomHex : Nat → String) (pin pan : String)
    (hpin : IsDigitStr pin) (hpl4 : 4 ≤ pin.length) (hpl12 : pin.length ≤ 12)
    (hpan : IsDigitStr pan) (hpanl : 13 ≤ pan.length) (hpanr : pan.length ≤ 19) :
    generateClearPinBlock randomHex pin pan .iso0 =
      .ok (bytesToHexUpper (xorBytes (hexBytes (iso0PinField pin))
        (hexBytes (iso0PanField pan)))) ∧
    specHexXor (iso0PinField pin) (iso0PanField pan) =
      some (bytesToHexUpper (xorBytes (hexBytes (iso0PinField pin))
        (hexBytes (iso0PanField pan)))) := by
  have hsingle := natToHexLower_single pin.length (by omega)
  have hpinFdata : (iso0PinField pin).data =
      '0' :: hexDigitLower pin.length :: (pin.data ++ List.replicate (14 - pin.length) 'F') := by
    show (("0" ++ natToHexLower pin.length ++ pin ++
      (⟨List.replicate (14 - pin.length) 'F'⟩ : String)).data) = _
    rw [hsingle]
    simp
  have hpinFlen : (iso0PinField pin).length = 16 := by
    rw [length_data, hpinFdata]
    simp only [List.length_cons, List.length_append, List.length_replicate, ← length_data]
    omega
  have hpinFhex : IsHexStr (iso0PinField pin) := by
    intro c hc
    rw [hpinFdata] at hc
    simp only [List.mem_cons, List.mem_append, List.mem_replicate] at hc
    rcases hc with rfl | rfl | hc | ⟨-, rfl⟩
    · decide
    · exact hexDigitLower_mem_hexChars _
    · exact digit_mem_hexChars c (hpin c hc)
    · decide
  have hdlen : ((pan.data.take (pan.length - 1)).drop (pan.length - 13)).length = 12 := by
    rw [List.length_drop, List.length_take, ← length_data]
    omega
  have hpanFdata : (iso0PanField pan).data =
      '0' :: '0' :: '0' :: '0' :: ((pan.data.take (pan.length - 1)).drop (pan.length - 13)) := by
    show (("0000" : String).data ++ _) = _
    rfl
  have hpanFlen : (iso0PanField pan).length = 16 := by
    rw [length_data, hpanFdata]
    simp only [List.length_cons, hdlen]
  have hpanFhex : IsHexStr (iso0PanField pan) := by
    intro c hc
    rw [hpanFdata] at hc
    simp only [List.mem_cons] at hc
    rcases hc with rfl | rfl | rfl | rfl | hc
    · decide
    · decide
    · decide
    · decide
    · have : c ∈ pan.data := List.mem_of_mem_take (List.mem_of_mem_drop hc)
      exact digit_mem_hexChars c (hpan c this)
  have hxor := xorHexStrings_pair (iso0PinField pin) (iso0PanField pan)
    hpinFhex hpanFhex (by rw [hpanFlen, hpinFlen]) (by rw [hpinFlen]; decide)
  have hpanEq : ("0000" ++ jsSubstring pan (pan.length - 13) (pan.length - 1)) =
      iso0PanField pan := by
    rw [jsSubstring_drop_take pan hpanl]
    rfl
  have hne : bytesToHexLower (xorBytes (hexBytes (iso0PinField pin))
      (hexBytes (iso0PanField pan))) ≠ "Error" := by
    intro h
    have := bytesToHexLower_length (xorBytes (hexBytes (iso0PinField pin))
      (hexBytes (iso0PanField pan)))
    rw [h] at this
    rw [show ("Error" : String).length = 5 from by decide] at this
    omega
  constructor
  · unfold generateClearPinBlock
    rw [if_neg (show ¬(PinBlockFormat.iso0 = PinBlockFormat.iso4) from by decide)]
    simp only
    simp only [if_true]
    rw [show ("0" ++ natToHexLower pin.length ++ pin ++
      (⟨List.replicate (14 - pin.length) 'F'⟩ : String)) = iso0PinField pin from rfl]
    rw [hpanEq, hxor, if_neg hne, jsToUpper_bytesToHexLower_all]
  · exact specHexXor_eq_xorBytes _ _ hpinFhex hpanFhex
      (by rw [hpinFlen, hpanFlen]) (by rw [hpinFlen]; decide)

/-- C4 counterexample.  For the 12-digit PAN `123456789012` the claim's
`panField` ("0000" followed by the 12 digits immediately preceding the check
digit) has only 11 digits — 15 nibbles — so the claimed XOR of the two
fields does not exist, while the code still returns a clear PIN block (the
lone trailing digit is parsed into the low nibble of the final byte). -/
theorem clear_iso0_pan12_counterexample :
    generateClearPinBlock (fun _ => "") "1234" "123456789012" .iso0 =
      .ok "041226CBA9876FFE" ∧
    specHexXor (iso0PinField "1234") (iso0PanField "123456789012") = none ∧
    (iso0PanField "123456789012").length = 15 :=
  ⟨by decide, by decide, by decide⟩

/-- Witness for C4 at PIN `1234` and the 17-digit PAN `43219876543210987`. -/
theorem clear_iso0_pin_block_witness :
    generateClearPinBlock (fun _ => "") "1234" "43219876543210987" .iso0 =
      .ok (bytesToHexUpper (xorBytes (hexBytes (iso0PinField "1234"))
        (hexBytes (iso0PanField "43219876543210987")))) ∧
    specHexXor (iso0PinField "1234") (iso0PanField "43219876543210987") =
      some (bytesToHexUpper (xorBytes (hexBytes (iso0PinField "1234"))
        (hexBytes (iso0PanField "43219876543210987")))) :=
  clear_iso0_pin_block (fun _ => "") "1234" "43219876543210987"
    (by decide) (by decide) (by decide) (by decide) (by decide) (by decide)

theorem jsToUpper_IsHexStr (s : String) (h : IsHexStr s) : IsHexStr (jsToUpper s) := by
  intro c hc
  have hc' : c ∈ s.data.map Char.toUpper := hc
  obtain ⟨c', hcm, rfl⟩ := List.mem_map.mp hc'
  exact upperHex_mem_hexChars _ (toUpper_mem_upperHex c' (h c' hcm))

/-- C3.  ISO-4 PIN-block generation is the Encrypt-XOR-Encrypt scheme: the
encrypted block is `AES(PEK, BlockB XOR AES(PEK, BlockA))` with `BlockA` the
32-nibble plaintext PIN field and `BlockB` the 32-nibble plaintext PAN
field, and the clear artifact returned is `BlockA` itself. -/
theorem iso4_encrypt_xor_encrypt (tdes aes : Cipher) (randomHex : Nat → String)
    (pin pan pek : String) (e1 fin : List Nat)
    (hpin : IsDigitStr pin) (hpl4 : 4 ≤ pin.length) (hpl12 : pin.length ≤ 12)
    (hpan : IsDigitStr pan) (hpanl : 12 ≤ pan.length) (hpanr : pan.length ≤ 19)
    (hpek : pek.length = 32 ∨ pek.length = 48 ∨ pek.length = 64)
    (hrhex : IsHexStr (randomHex 8)) (hrlen : (randomHex 8).length = 16)
    (he1 : aes (hexBytes pek) (hexBytes (iso4PinField randomHex pin)) = some e1)
    (he1len : e1.length = 16) (he1b : ∀ b ∈ e1, b < 256)
    (hfin : aes (hexBytes pek) (xorBytes (hexBytes (iso4PanField pan)) e1) = some fin) :
    generatePinBlock tdes aes randomHex pin pan pek .iso4 =
      .ok (iso4PinField randomHex pin, bytesToHexUpper fin) := by
  have hm : pan.length - 12 < 16 := by omega
  have hmHex := natToHexLower_single (pan.length - 12) hm
  have hnp : ¬(pan.length < 12) := by omega
  have hpanFdata : (iso4PanField pan).data =
      ((natToHexLower (pan.length - 12) ++ pan).data ++
        List.replicate (32 - (natToHexLower (pan.length - 12) ++ pan).length) '0').map
        Char.toUpper := by
    unfold iso4PanField
    rw [if_neg hnp, if_neg hnp]
    rfl
  have hmlen : (natToHexLower (pan.length - 12) ++ pan).length = 1 + pan.length := by
    rw [length_data]
    show ((natToHexLower (pan.length - 12)).data ++ pan.data).length = _
    rw [hmHex]
    simp only [List.length_append, List.length_singleton, ← length_data]
  have hmlen' : (natToHexLower (pan.length - 12) ++ pan).data.length = 1 + pan.length := by
    rw [← length_data]
    exact hmlen
  have hpanFlen : (iso4PanField pan).length = 32 := by
    rw [length_data, hpanFdata]
    simp only [List.length_map, List.length_append, List.length_replicate, hmlen, hmlen']
    omega
  have hpanFhex : IsHexStr (iso4PanField pan) := by
    have hbase : IsHexStr (padEnd (natToHexLower (pan.length - 12) ++ pan) 32 '0') := by
      intro c hc
      have hc' : c ∈ (natToHexLower (pan.length - 12)).data ++ pan.data ++
          List.replicate (32 - (natToHexLower (pan.length - 12) ++ pan).length) '0' := hc
      rw [hmHex] at hc'
      simp only [List.mem_append, List.mem_replicate, List.mem_singleton] at hc'
      rcases hc' with (rfl | hc') | ⟨-, rfl⟩
      · exact hexDigitLower_mem_hexChars _
      · exact digit_mem_hexChars c (hpan c hc')
      · decide
    have : iso4PanField pan =
        jsToUpper (padEnd (natToHexLower (pan.length - 12) ++ pan) 32 '0') := by
      unfold iso4PanField
      rw [if_neg hnp, if_neg hnp]
    rw [this]
    exact jsToUpper_IsHexStr _ hbase
  have hE1len : (bytesToHexLower e1).length = 32 := by
    rw [bytesToHexLower_length, he1len]
  have hE1hex := bytesToHexLower_chars e1
  have hxor := xorHexStrings_pair (iso4PanField pan) (bytesToHexLower e1)
    hpanFhex hE1hex (by rw [hE1len, hpanFlen]) (by rw [hpanFlen]; decide)
  have hrt : hexBytes (bytesToHexLower e1) = e1 := hexBytes_bytesToHexLower e1 he1b
  have hX : xorHexStrings [iso4PanField pan, bytesToHexLower e1] =
      bytesToHexLower (xorBytes (hexBytes (iso4PanField pan)) e1) := by
    rw [hxor, hrt]
  have hXb : ∀ b ∈ xorBytes (hexBytes (iso4PanField pan)) e1, b < 256 :=
    xorBytes_lt_256 (hexBytes_lt_256 _ hpanFhex) he1b
  have hXrt : hexBytes (bytesToHexLower (xorBytes (hexBytes (iso4PanField pan)) e1)) =
      xorBytes (hexBytes (iso4PanField pan)) e1 := hexBytes_bytesToHexLower _ hXb
  have hne : bytesToHexLower (xorBytes (hexBytes (iso4PanField pan)) e1) ≠ "Error" := by
    intro h
    have := bytesToHexLower_length (xorBytes (hexBytes (iso4PanField pan)) e1)
    rw [h, show ("Error" : String).length = 5 from by decide] at this
    omega
  unfold generatePinBlock
  rw [if_pos rfl]
  simp only
  rw [he1]
  simp only
  rw [hX, if_neg hne, hXrt, hfin]
  simp only
  rw [jsToUpper_bytesToHexLower_all]

/-- Witness for C3 at concrete PIN, PAN, PEK, fixed random nibbles and the
`zeroCipher`. -/
theorem iso4_encrypt_xor_encrypt_witness :
    generatePinBlock zeroCipher zeroCipher (fun _ => "0123456789abcdef")
      "1234" "43219876543210987" "00112233445566778899AABBCCDDEEFF" .iso4 =
    .ok (iso4PinField (fun _ => "0123456789abcdef") "1234",
      bytesToHexUpper (List.replicate 16 0)) :=
  iso4_encrypt_xor_encrypt zeroCipher zeroCipher (fun _ => "0123456789abcdef")
    "1234" "43219876543210987" "00112233445566778899AABBCCDDEEFF"
    (List.replicate 16 0) (List.replicate 16 0)
    (by decide) (by decide) (by decide) (by decide) (by decide) (by decide)
    (by decide) (by decide) (by decide) (by decide) (by decide) (by decide)
    (by decide)

/-! ## Luhn (`src/services/cryptoService.ts`) -/

/-- One Luhn doubling step: double the digit and subtract 9 when the double
exceeds 9. -/
def luhnDouble (d : Nat) : Nat := if 2 * d > 9 then 2 * d - 9 else 2 * d

/-- The right-to-left Luhn sum: the list is the digit values rightmost
first, the flag says whether the current digit is doubled. -/
def luhnSum : List Nat → Bool → Nat
  | [], _ => 0
  | d :: t, b => (if b then luhnDouble d else d) + luhnSum t (!b)

/-- `validateLuhn`: non-digit or empty input is invalid; otherwise the sum
(rightmost digit not doubled) must be divisible by 10. -/
def validateLuhn (pan : String) : Bool :=
  if pan ≠ "" ∧ pan.data.all Char.isDigit then
    luhnSum (pan.data.reverse.map digitVal) false % 10 == 0
  else false

/-- `calculateLuhnCheckDigit`: digits only, `0` for the empty string,
otherwise `(10 − sum mod 10) mod 10` with the rightmost digit doubled. -/
def calculateLuhnCheckDigit (basePan : String) : Except String Nat :=
  if basePan.data.all Char.isDigit then
    if basePan.length = 0 then .ok 0
    else .ok ((10 - luhnSum (basePan.data.reverse.map digitVal) true % 10) % 10)
  else .error "Input must be a string of digits."

/-- The decimal digit character of a value `< 10`. -/
def decDigitChar (d : Nat) : Char := digitChars.getD d '0'

theorem decDigitChar_isDigit : ∀ d < 10, (decDigitChar d).isDigit = true := by decide

theorem digitVal_decDigitChar : ∀ d < 10, digitVal (decDigitChar d) = d := by decide

/-- C9.  Appending the computed Luhn check digit always yields a string
`validateLuhn` accepts. -/
theorem luhn_check_digit_validates (base : String) (d : Nat)
    (hne : base ≠ "") (hdig : IsDigitStr base)
    (hd : calculateLuhnCheckDigit base = .ok d) :
    validateLuhn (base ++ ⟨[decDigitChar d]⟩) = true := by
  have hall : base.data.all Char.isDigit = true := by
    rw [List.all_eq_true]
    intro c hc
    exact digit_isDigit c (hdig c hc)
  have hlen0 : ¬ base.length = 0 := by
    intro h
    apply hne
    apply String.ext
    rw [length_data] at h
    exact List.length_eq_zero.mp h
  have hdval : d = (10 - luhnSum (base.data.reverse.map digitVal) true % 10) % 10 := by
    unfold calculateLuhnCheckDigit at hd
    rw [if_pos hall, if_neg hlen0] at hd
    exact (Except.ok.inj hd).symm
  set S := luhnSum (base.data.reverse.map digitVal) true with hS
  have hd10 : d < 10 := by
    rw [hdval]
    exact Nat.mod_lt _ (by norm_num)
  have happ : (base ++ (⟨[decDigitChar d]⟩ : String)).data =
      base.data ++ [decDigitChar d] := rfl
  have hne' : base ++ (⟨[decDigitChar d]⟩ : String) ≠ "" := by
    intro h
    have := congrArg String.data h
    rw [happ] at this
    simp at this
  have hall' : (base ++ (⟨[decDigitChar d]⟩ : String)).data.all Char.isDigit = true := by
    rw [happ, List.all_append, hall]
    simp [decDigitChar_isDigit d hd10]
  unfold validateLuhn
  rw [if_pos ⟨hne', hall'⟩, happ]
  have hrev : (base.data ++ [decDigitChar d]).reverse.map digitVal =
      d :: base.data.reverse.map digitVal := by
    rw [List.reverse_append]
    simp [digitVal_decDigitChar d hd10]
  rw [hrev]
  have hsum : luhnSum (d :: base.data.reverse.map digitVal) false = d + S := by
    rw [luhnSum]
    rfl
  rw [hsum]
  have hSmod : S % 10 < 10 := Nat.mod_lt _ (by norm_num)
  have : (d + S) % 10 = 0 := by omega
  simp [this]

/-- Witness for C9: base `7992739871`, check digit 3
(`79927398713` validates). -/
theorem luhn_check_digit_validates_witness :
    validateLuhn ("7992739871" ++ ⟨[decDigitChar 3]⟩) = true :=
  luhn_check_digit_validates "7992739871" 3 (by decide) (by decide) (by decide)

/-! ## TR-31 parsing (`src/services/cryptoService.ts`, `KeyBlockParser`) -/

/-- `types.ts` `Tr31Header`.  `numberOfOptionalBlocks` is the raw
`parseInt` result, which JS represents as a (possibly negative) number. -/
structure Tr31Header where
  versionId : String
  keyBlockLength : String
  keyUsage : String
  algorithm : String
  modeOfUse : String
  keyVersionNumber : String
  exportability : String
  numberOfOptionalBlocks : Int
  reserved : String
  deriving DecidableEq, Repr

/-- `types.ts` `Tr31OptionalBlock`. -/
structure Tr31OptionalBlock where
  blockId : String
  length : Nat
  value : String
  deriving DecidableEq, Repr

/-- The `raw` sub-object of `Tr31ParsedBlock`. -/
structure Tr31Raw where
  header : String
  optionalBlocks : String
  encryptedKeyAndAuthenticator : String
  deriving DecidableEq, Repr

/-- `types.ts` `Tr31ParsedBlock`. -/
structure Tr31ParsedBlock where
  header : Tr31Header
  optionalBlocks : List Tr31OptionalBlock
  encryptedKey : String
  authenticator : String
  raw : Tr31Raw
  deriving DecidableEq, Repr

/-- Decimal value of a digit list. -/
def decDigitsVal (l : List Char) : Nat := l.foldl (fun acc c => 10 * acc + digitVal c) 0

/-- JS `parseInt(s, 10)`: optional sign, then the longest digit prefix;
`none` is `NaN`. -/
def jsParseInt (s : String) : Option Int :=
  match s.data with
  | [] => none
  | '-' :: t =>
    let ds := t.takeWhile Char.isDigit
    if ds = [] then none else some (-(decDigitsVal ds : Int))
  | '+' :: t =>
    let ds := t.takeWhile Char.isDigit
    if ds = [] then none else some ((decDigitsVal ds : Int))
  | l =>
    let ds := l.takeWhile Char.isDigit
    if ds = [] then none else some ((decDigitsVal ds : Int))

/-- Decimal digits of `n`, most significant first (fuel-bounded). -/
def natToDecCore : Nat → Nat → List Char → List Char
  | 0, _, acc => acc
  | fuel + 1, n, acc =>
    if n = 0 then acc
    else natToDecCore fuel (n / 10) (decDigitChar (n % 10) :: acc)

/-- JS `String(n)` for a nonnegative number. -/
def natToDecString (n : Nat) : String :=
  if n = 0 then "0" else ⟨natToDecCore n n []⟩

/-- JS `String(v)` for an integer. -/
def intToString (v : Int) : String :=
  if v < 0 then "-" ++ natToDecString (-v).toNat else natToDecString v.toNat

/-- The optional-block loop of `parseTr31Block`: at most `n` blocks starting
at `offset`; returns the offset after the blocks, the parsed blocks and the
raw optional-block text.  Malformed block headers stop the loop;
a declared length running past the end is an error. -/
def parseOptBlocks (s : String) : Nat → Nat →
    Except String (Nat × List Tr31OptionalBlock × String)
  | 0, offset => .ok (offset, [], "")
  | n + 1, offset =>
    if offset + 4 > s.length then .ok (offset, [], "")
    else
      let blockId := jsSubstring s offset (offset + 2)
      let blockLengthStr := jsSubstring s (offset + 2) (offset + 4)
      if ¬ (blockId.data.all (fun c => c.isUpper || c.isDigit) ∧ blockId.length = 2 ∧
            blockLengthStr.data.all Char.isDigit ∧ blockLengthStr.length = 2) then
        .ok (offset, [], "")
      else
        let blockLengthBytes := decDigitsVal blockLengthStr.data
        let blockLengthChars := blockLengthBytes * 2
        if offset + 4 + blockLengthChars > s.length then
          .error "Incomplete optional block data."
        else
          let blockValue := jsSubstring s (offset + 4) (offset + 4 + blockLengthChars)
          let fullBlockStr := jsSubstring s offset (offset + 4 + blockLengthChars)
          match parseOptBlocks s n (offset + 4 + blockLengthChars) with
          | .error e => .error e
          | .ok (o, bs, r) =>
            .ok (o, ⟨blockId, blockLengthBytes, blockValue⟩ :: bs, fullBlockStr ++ r)

/-- The authenticator length switch of `parseTr31Block`: 64 hex chars for
version `'D'`, 32 for `'C'` with algorithm `'A'` and 16 for `'C'`
otherwise, 16 for every other version. -/
def tr31AuthLen (header : Tr31Header) : Nat :=
  if header.versionId = "D" then 64
  else if header.versionId = "C" then
    (if header.algorithm = "A" then 32 else 16)
  else 16

/-- `parseTr31Block`: strip whitespace and uppercase, check the 16-char
header and its declared total length, walk the optional blocks, split the
remainder into encrypted key and version-dependent authenticator. -/
def parseTr31Block (keyBlockAscii : String) : Except String Tr31ParsedBlock :=
  let cleanedAscii := jsToUpper ⟨keyBlockAscii.data.filter (fun c => !c.isWhitespace)⟩
  if cleanedAscii.length < 16 then
    .error "Invalid TR-31 block. Length must be at least 16 characters for the header."
  else
    let rawHeader := jsSubstring cleanedAscii 0 16
    let keyBlockLengthStr := jsSubstring rawHeader 1 5
    match jsParseInt keyBlockLengthStr with
    | none => .error "Invalid key block length in header."
    | some keyBlockLength =>
      if padStart (intToString keyBlockLength) 4 '0' ≠ keyBlockLengthStr then
        .error "Invalid key block length in header."
      else if (cleanedAscii.length : Int) ≠ keyBlockLength then
        .error "Key block length mismatch."
      else
        match jsParseInt (jsSubstring rawHeader 12 14) with
        | none => .error "Invalid number of optional blocks in header."
        | some numOpt =>
          let header : Tr31Header :=
            { versionId := jsSubstring rawHeader 0 1,
              keyBlockLength := keyBlockLengthStr,
              keyUsage := jsSubstring rawHeader 5 7,
              algorithm := jsSubstring rawHeader 7 8,
              modeOfUse := jsSubstring rawHeader 8 9,
              keyVersionNumber := jsSubstring rawHeader 9 11,
              exportability := jsSubstring rawHeader 11 12,
              numberOfOptionalBlocks := numOpt,
              reserved := jsSubstring rawHeader 14 16 }
          match parseOptBlocks cleanedAscii numOpt.toNat 16 with
          | .error e => .error e
          | .ok (currentOffset, optionalBlocks, rawOptionalBlocksStr) =>
            let authenticatorLengthChars : Nat := tr31AuthLen header
            if cleanedAscii.length - currentOffset < authenticatorLengthChars then
              .error "Not enough data for encrypted key and authenticator."
            else
              let encryptedKeyAndAuthenticator := jsSubstringFrom cleanedAscii currentOffset
              let encryptedKey := jsSubstring encryptedKeyAndAuthenticator 0
                (encryptedKeyAndAuthenticator.length - authenticatorLengthChars)
              let authenticator := jsSubstringFrom encryptedKeyAndAuthenticator
                (encryptedKeyAndAuthenticator.length - authenticatorLengthChars)
              if encryptedKey.length ≠ 0 ∧ encryptedKey.length % 2 ≠ 0 then
                .error "Invalid encrypted key length."
              else
                .ok { header := header, optionalBlocks := optionalBlocks,
                      encryptedKey := encryptedKey, authenticator := authenticator,
                      raw := { header := rawHeader,
                               optionalBlocks := rawOptionalBlocksStr,
                               encryptedKeyAndAuthenticator :=
                                 encryptedKeyAndAuthenticator } }

/-- JS `String.prototype.startsWith`. -/
def jsStartsWith (s pre : String) : Bool := s.data.take pre.data.length == pre.data

/-- `handleParse` of the `KeyBlockParser` component: empty input is an
error; a leading `'R'`/`'r'` is stripped before `parseTr31Block`. -/
def handleParseKeyBlock (keyBlockInput : String) : Except String Tr31ParsedBlock :=
  if keyBlockInput = "" then .error "Input cannot be empty."
  else
    let processedInput :=
      if jsStartsWith keyBlockInput "R" ∨ jsStartsWith keyBlockInput "r" then
        jsSubstringFrom keyBlockInput 1
      else keyBlockInput
    parseTr31Block processedInput

theorem jsSubstringFrom_drop (s : String) (a : Nat) (ha : a ≤ s.length) :
    jsSubstringFrom s a = ⟨s.data.drop a⟩ := by
  apply String.ext
  simp only [jsSubstringFrom, jsSubstring, Nat.min_self]
  rw [Nat.min_eq_left ha, Nat.min_eq_left ha, Nat.max_eq_right ha]
  rw [List.take_of_length_le]
  rw [List.length_drop, ← length_data]

set_option maxHeartbeats 1600000 in
/-- C6.  In every successfully parsed TR-31 block the authenticator is the
last `tr31AuthLen` chars of the post-optional-block remainder (64 for
version `'D'`; 32 for `'C'` with algorithm `'A'`, else 16; 16 otherwise),
the encrypted key is the rest (possibly empty), and a non-empty encrypted
key has even length. -/
theorem tr31_split_and_authenticator (s : String) (r : Tr31ParsedBlock)
    (h : parseTr31Block s = .ok r) :
    r.authenticator = ⟨r.raw.encryptedKeyAndAuthenticator.data.drop
      (r.raw.encryptedKeyAndAuthenticator.data.length - tr31AuthLen r.header)⟩ ∧
    r.encryptedKey = ⟨r.raw.encryptedKeyAndAuthenticator.data.take
      (r.raw.encryptedKeyAndAuthenticator.data.length - tr31AuthLen r.header)⟩ ∧
    (r.encryptedKey.length ≠ 0 → r.encryptedKey.length % 2 = 0) := by
  unfold parseTr31Block at h
  simp only [] at h
  split at h
  · exact Except.noConfusion h
  · split at h
    · exact Except.noConfusion h
    · split at h
      · exact Except.noConfusion h
      · split at h
        · exact Except.noConfusion h
        · split at h
          · exact Except.noConfusion h
          · split at h
            · exact Except.noConfusion h
            · split at h
              · exact Except.noConfusion h
              · split at h
                · exact Except.noConfusion h
                · rename_i hkeylen
                  obtain rfl := Except.ok.inj h
                  refine ⟨?_, ?_, ?_⟩
                  · simp only
                    rw [← length_data]
                    exact jsSubstringFrom_drop _ _ (Nat.sub_le _ _)
                  · simp only
                    rw [← length_data]
                    exact jsSubstring_zero _ _
                  · simp only
                    intro h0
                    push_neg at hkeylen
                    exact hkeylen h0
/-- The parse a metadata-only witness block produces: the encrypted key is
empty and the whole remainder is the authenticator. -/
def tr31WitnessBlock : Tr31ParsedBlock :=
  { header := { versionId := "A", keyBlockLength := "0032", keyUsage := "B1",
                algorithm := "T", modeOfUse := "X", keyVersionNumber := "00",
                exportability := "N", numberOfOptionalBlocks := 0, reserved := "00" },
    optionalBlocks := [],
    encryptedKey := "",
    authenticator := "1234567890ABCDEF",
    raw := { header := "A0032B1TX00N0000", optionalBlocks := "",
             encryptedKeyAndAuthenticator := "1234567890ABCDEF" } }

/-- Witness for C6 at a concrete version-`'A'` block whose encrypted key is
empty (metadata-only blocks parse successfully). -/
theorem tr31_split_and_authenticator_witness :
    parseTr31Block "A0032B1TX00N00001234567890ABCDEF" = .ok tr31WitnessBlock ∧
    (tr31WitnessBlock.authenticator =
      ⟨tr31WitnessBlock.raw.encryptedKeyAndAuthenticator.data.drop
        (tr31WitnessBlock.raw.encryptedKeyAndAuthenticator.data.length -
          tr31AuthLen tr31WitnessBlock.header)⟩ ∧
    tr31WitnessBlock.encryptedKey =
      ⟨tr31WitnessBlock.raw.encryptedKeyAndAuthenticator.data.take
        (tr31WitnessBlock.raw.encryptedKeyAndAuthenticator.data.length -
          tr31AuthLen tr31WitnessBlock.header)⟩ ∧
    (tr31WitnessBlock.encryptedKey.length ≠ 0 →
      tr31WitnessBlock.encryptedKey.length % 2 = 0)) :=
  ⟨by decide, tr31_split_and_authenticator "A0032B1TX00N00001234567890ABCDEF"
    tr31WitnessBlock (by decide)⟩

/-- C8.  When the input starts with `'R'` or `'r'`, the TR-31 parse flow
strips that character and parses — header and declared-total-length check
included — the remainder of the string. -/
theorem tr31_strips_leading_R (s : String)
    (h : jsStartsWith s "R" ∨ jsStartsWith s "r") :
    handleParseKeyBlock s = parseTr31Block ⟨s.data.drop 1⟩ := by
  have hne : s ≠ "" := by
    rintro rfl
    rcases h with h | h <;> exact absurd h (by decide)
  have hlen : 1 ≤ s.length := by
    rcases Nat.lt_or_ge s.length 1 with hl | hl
    · exfalso
      apply hne
      apply String.ext
      rw [length_data] at hl
      exact List.length_eq_zero.mp (by omega)
    · exact hl
  unfold handleParseKeyBlock
  rw [if_neg hne, if_pos h, jsSubstringFrom_drop s 1 hlen]

/-- Witness for C8: a concrete `'R'`-prefixed key block parses exactly as
its remainder does. -/
theorem tr31_strips_leading_R_witness :
    handleParseKeyBlock "RA0032B1TX00N00001234567890ABCDEF" =
      parseTr31Block ⟨("RA0032B1TX00N00001234567890ABCDEF" : String).data.drop 1⟩ :=
  tr31_strips_leading_R "RA0032B1TX00N00001234567890ABCDEF" (by decide)

/-! ## DUKPT (`src/services/cryptoService.ts`) -/

/-- `types.ts` `DukptKeys`. -/
structure DukptKeys where
  ipek : String
  transactionKey : String
  pinKey : String
  macRequestKey : String
  macResponseKey : String
  dataRequestKey : String
  dataResponseKey : String
  ksn : String
  counter : String
  deriving DecidableEq, Repr

def BDK_MOD_VECTOR : String := "C0C0C0C000000000C0C0C0C000000000"

def PIN_VARIANT_VECTOR : String := "000000000000000000000000000000F0"

def MAC_REQUEST_VARIANT_VECTOR : String := "0000000000000000FFFFFFFF00000000"

def MAC_RESPONSE_VARIANT_VECTOR : String := "000000000000000000000000FFFFFFFF"

def DATA_REQUEST_VARIANT_VECTOR : String := "00000000FFFFFFFF0000000000000000"

def DATA_RESPONSE_VARIANT_VECTOR : String := "0000000000000000FFFFFFFFFFFFFFFF"

/-- `BigInt('0x' + s)` for a hex string. -/
def hexToNat (s : String) : Nat :=
  s.data.foldl (fun acc c => 16 * acc + hexVal c) 0

/-- `tdesEncrypt`: hex-parse the key and data, encrypt, render the
ciphertext as uppercase hex (`none` models a thrown exception). -/
def tdesEncryptHex (tdes : Cipher) (keyHex dataHex : String) : Option String :=
  (tdes (hexBytes keyHex) (hexBytes dataHex)).map
    (fun ct => jsToUpper (bytesToHexLower ct))

/-- `getIpek`: encrypt the rightmost 8 KSN bytes under the BDK and under
the BDK XOR `BDK_MOD_VECTOR`, concatenating the two halves. -/
def getIpek (tdes : Cipher) (bdkHex ksnHex : String) : Option String :=
  let ksnForIpek := jsSubstringFrom ksnHex (ksnHex.length - 16)
  (tdesEncryptHex tdes bdkHex ksnForIpek).bind fun ipekLeft =>
  let bdkMod := xorHexStrings [bdkHex, jsSubstring BDK_MOD_VECTOR 0 bdkHex.length]
  (tdesEncryptHex tdes bdkMod ksnForIpek).map fun ipekRight =>
  ipekLeft ++ ipekRight

/-- One executed iteration of the transaction-key walk (the non-reversible
key-generation step of ANSI X9.24-1): sets bit `i` of the shift register
and derives the two halves of the next key. -/
def dukptRound (tdes : Cipher) (st : String × Nat) (i : Nat) :
    Option (String × Nat) :=
  let bit := 1 <<< i
  let sr := st.2 ||| bit
  let ksnPortion := jsSubstring
    (padStart (natToHexLower (sr &&& 0xFFFFFFFFFFFFFFFFFFFF)) 20 '0') 4 20
  let keyRight := jsSubstring st.1 16 32
  let msg := xorHexStrings [ksnPortion, keyRight]
  (tdesEncryptHex tdes (jsSubstring st.1 0 16) msg).bind fun newKeyLeft0 =>
  let newKeyLeft := xorHexStrings [newKeyLeft0, keyRight]
  let keyMod := xorHexStrings [st.1, BDK_MOD_VECTOR]
  let keyLeftMod := jsSubstring keyMod 0 16
  let keyRightMod := jsSubstring keyMod 16 32
  let msg2 := xorHexStrings [ksnPortion, keyRightMod]
  (tdesEncryptHex tdes keyLeftMod msg2).map fun newKeyRight0 =>
  let newKeyRight := xorHexStrings [newKeyRight0, keyRightMod]
  (newKeyLeft ++ newKeyRight, sr)

/-- `deriveDukptKeys`: validate the BDK and KSN, split off the 21-bit
counter, derive the IPEK from the counter-cleared KSN, run the 21-step
shift-register walk over the set counter bits, and XOR in the five ANSI
X9.24-1 session-key variants. -/
def deriveDukptKeys (tdes : Cipher) (bdkHex ksnHex : String) :
    Except String DukptKeys :=
  if ¬ (bdkHex.length = 32 ∨ bdkHex.length = 48) then
    .error "BDK must be a 16-byte (32 hex chars) or 24-byte (48 hex chars) key."
  else if ksnHex.length ≠ 20 then
    .error "KSN must be a 10-byte (20 hex chars) value."
  else if ¬ ksnHex.data.all (fun c => hexChars.contains c) then
    .error "SyntaxError: cannot convert to a BigInt"
  else
    let ksnNat := hexToNat ksnHex
    let counter := ksnNat &&& 0x1FFFFF
    let counterHex := jsToUpper (padStart (natToHexLower counter) 6 '0')
    let ksnWithoutCounter := ksnNat - ksnNat % 2 ^ 21
    match getIpek tdes bdkHex (padStart (natToHexLower ksnWithoutCounter) 20 '0') with
    | none => .error "exception from 3DES encrypt"
    | some ipek =>
      match (List.range 21).foldlM (fun st i =>
          if (counter >>> i) &&& 1 = 1 then dukptRound tdes st i else some st)
          (ipek, ksnWithoutCounter) with
      | none => .error "exception from 3DES encrypt"
      | some (transactionKey, _) =>
        .ok { ipek := ipek,
              transactionKey := transactionKey,
              pinKey := xorHexStrings [transactionKey, PIN_VARIANT_VECTOR],
              macRequestKey := xorHexStrings [transactionKey, MAC_REQUEST_VARIANT_VECTOR],
              macResponseKey := xorHexStrings [transactionKey, MAC_RESPONSE_VARIANT_VECTOR],
              dataRequestKey := xorHexStrings [transactionKey, DATA_REQUEST_VARIANT_VECTOR],
              dataResponseKey := xorHexStrings [transactionKey, DATA_RESPONSE_VARIANT_VECTOR],
              ksn := jsToUpper ksnHex,
              counter := counterHex }

/-! ### C1 support: hex rendering round-trips through `BigInt` values -/

/-- Value of a big-endian base-16 digit list. -/
def nibsVal (l : List Nat) : Nat := l.foldl (fun a v => 16 * a + v) 0

theorem foldl_nibs (l : List Nat) : ∀ a : Nat,
    l.foldl (fun a v => 16 * a + v) a = a * 16 ^ l.length + nibsVal l := by
  induction l with
  | nil => intro a; simp [nibsVal]
  | cons x xs ih =>
    intro a
    have hx : nibsVal (x :: xs) = x * 16 ^ xs.length + nibsVal xs := by
      show xs.foldl (fun a v => 16 * a + v) (16 * 0 + x) = _
      rw [ih]; ring_nf
    simp only [List.foldl_cons, List.length_cons, hx]
    rw [ih]
    ring

theorem nibsVal_lt (l : List Nat) (h : ∀ v ∈ l, v < 16) :
    nibsVal l < 16 ^ l.length := by
  induction l with
  | nil => simp [nibsVal]
  | cons x xs ih =>
    have hx : nibsVal (x :: xs) = x * 16 ^ xs.length + nibsVal xs := by
      show xs.foldl (fun a v => 16 * a + v) (16 * 0 + x) = _
      rw [foldl_nibs]; ring_nf
    rw [hx, List.length_cons, pow_succ]
    have h1 : x ≤ 15 := Nat.lt_succ_iff.mp (h x (List.mem_cons_self _ _))
    have h2 : nibsVal xs < 16 ^ xs.length := ih (fun v hv => h v (List.mem_cons_of_mem _ hv))
    calc x * 16 ^ xs.length + nibsVal xs
        < x * 16 ^ xs.length + 16 ^ xs.length := by omega
      _ = (x + 1) * 16 ^ xs.length := by ring
      _ ≤ 16 * 16 ^ xs.length := Nat.mul_le_mul_right _ (by omega)
      _ = 16 ^ xs.length * 16 := by ring

/-- Big-endian byte expansion of a value to `k` bytes. -/
def natToBytesBE : Nat → Nat → List Nat
  | 0, _ => []
  | k + 1, n => n / 256 ^ k :: natToBytesBE k (n % 256 ^ k)

theorem pairsToBytes_eq_natToBytesBE : ∀ (k : Nat) (l : List Nat),
    l.length = 2 * k → (∀ v ∈ l, v < 16) →
    pairsToBytes l = natToBytesBE k (nibsVal l) := by
  intro k
  induction k with
  | zero =>
    intro l hl _
    rw [List.length_eq_zero.mp hl]
    rfl
  | succ k ih =>
    intro l hl hv
    match l, hl with
    | a :: b :: t, hl =>
      have ht : t.length = 2 * k := by
        simp only [List.length_cons] at hl; omega
      have hval : nibsVal (a :: b :: t) = (16 * a + b) * 256 ^ k + nibsVal t := by
        show t.foldl (fun a v => 16 * a + v) (16 * (16 * 0 + a) + b) = _
        rw [foldl_nibs, ht]
        have h216 : (16 : Nat) ^ (2 * k) = 256 ^ k := by
          rw [pow_mul]; norm_num
        rw [h216]
        ring_nf
      have hab : 16 * a + b < 256 := by
        have ha := hv a (by simp)
        have hb := hv b (by simp)
        omega
      have htlt : nibsVal t < 256 ^ k := by
        have hlt := nibsVal_lt t (fun v hvm => hv v (by simp [hvm]))
        rw [ht] at hlt
        calc nibsVal t < 16 ^ (2 * k) := hlt
          _ = 256 ^ k := by rw [pow_mul]; norm_num
      have hrearr : (16 * a + b) * 256 ^ k + nibsVal t
          = nibsVal t + 256 ^ k * (16 * a + b) := by ring
      have hdiv : nibsVal (a :: b :: t) / 256 ^ k = 16 * a + b := by
        rw [hval, hrearr, Nat.add_mul_div_left _ _ (Nat.pos_pow_of_pos k (by norm_num))]
        rw [Nat.div_eq_of_lt htlt]; omega
      have hmod : nibsVal (a :: b :: t) % 256 ^ k = nibsVal t := by
        rw [hval, hrearr, Nat.add_mul_mod_self_left]
        exact Nat.mod_eq_of_lt htlt
      show (16 * a + b) :: pairsToBytes t = _
      rw [natToBytesBE, hdiv, hmod]
      rw [ih t ht (fun v hvm => hv v (by simp [hvm]))]

theorem hexToNat_eq_nibsVal (s : String) :
    hexToNat s = nibsVal (s.data.map hexVal) := by
  unfold hexToNat nibsVal
  rw [List.foldl_map]

theorem hexToNat_lt (s : String) (h : IsHexStr s) :
    hexToNat s < 16 ^ s.length := by
  rw [hexToNat_eq_nibsVal, length_data]
  have hlt := nibsVal_lt (s.data.map hexVal) ?_
  · simpa using hlt
  · intro v hv
    obtain ⟨c, hc, rfl⟩ := List.mem_map.mp hv
    exact hexVal_lt_16 c (h c hc)

theorem hexBytes_eq_natToBytesBE (s : String) (k : Nat)
    (hl : s.length = 2 * k) (hh : IsHexStr s) :
    hexBytes s = natToBytesBE k (hexToNat s) := by
  rw [hexToNat_eq_nibsVal]
  apply pairsToBytes_eq_natToBytesBE
  · rw [List.length_map, ← length_data, hl]
  · intro v hv
    obtain ⟨c, hc, rfl⟩ := List.mem_map.mp hv
    exact hexVal_lt_16 c (hh c hc)

theorem natToHexCore_acc : ∀ (f n : Nat) (acc : List Char),
    natToHexCore f n acc = natToHexCore f n [] ++ acc := by
  intro f
  induction f with
  | zero => intro n acc; rfl
  | succ f ih =>
    intro n acc
    by_cases hn : n = 0
    · simp [natToHexCore, hn]
    · rw [natToHexCore, if_neg hn, natToHexCore, if_neg hn]
      rw [ih (n / 16) (hexDigitLower (n % 16) :: acc),
          ih (n / 16) [hexDigitLower (n % 16)]]
      simp

theorem natToHexCore_zero (f : Nat) : natToHexCore f 0 [] = [] := by
  cases f <;> rfl

theorem natToHexCore_spec : ∀ (f n : Nat), 0 < n → n ≤ f →
    nibsVal ((natToHexCore f n []).map hexVal) = n ∧
    (∀ c ∈ natToHexCore f n [], c ∈ hexChars) ∧
    ∀ d, n < 16 ^ d → (natToHexCore f n []).length ≤ d := by
  intro f
  induction f with
  | zero => intro n h0 hf; omega
  | succ f ih =>
    intro n h0 hf
    rw [natToHexCore, if_neg (by omega)]
    rw [natToHexCore_acc]
    by_cases hq : n / 16 = 0
    · have hn16 : n < 16 := by omega
      rw [hq, natToHexCore_zero]
      refine ⟨?_, ?_, ?_⟩
      · show nibsVal [hexVal (hexDigitLower (n % 16))] = n
        show 16 * 0 + hexVal (hexDigitLower (n % 16)) = n
        rw [hexVal_hexDigitLower _ (Nat.mod_lt _ (by norm_num))]
        omega
      · intro c hc
        simp only [List.nil_append, List.mem_singleton] at hc
        rw [hc]
        exact hexDigitLower_mem_hexChars _
      · intro d hd
        simp only [List.nil_append, List.length_singleton]
        by_contra hcon
        have hd0 : d = 0 := by omega
        rw [hd0] at hd
        simp at hd
        omega
    · have hq16 : 16 ≤ n := by
        by_contra hcon
        exact hq (Nat.div_eq_of_lt (by omega))
      have hqle : n / 16 ≤ f := by
        have := Nat.div_lt_self h0 (show 1 < 16 by norm_num)
        omega
      obtain ⟨ihv, ihc, ihl⟩ := ih (n / 16) (by omega) hqle
      refine ⟨?_, ?_, ?_⟩
      · rw [List.map_append]
        show List.foldl _ 0 _ = n
        rw [List.foldl_append]
        show List.foldl (fun a v => 16 * a + v) (nibsVal _) _ = n
        show 16 * nibsVal ((natToHexCore f (n / 16) []).map hexVal) +
          hexVal (hexDigitLower (n % 16)) = n
        rw [ihv, hexVal_hexDigitLower _ (Nat.mod_lt _ (by norm_num))]
        omega
      · intro c hc
        rcases List.mem_append.mp hc with hc | hc
        · exact ihc c hc
        · simp only [List.mem_singleton] at hc
          rw [hc]
          exact hexDigitLower_mem_hexChars _
      · intro d hd
        have hd1 : 1 ≤ d := by
          by_contra hcon
          have hd0 : d = 0 := by omega
          rw [hd0] at hd
          simp at hd
          omega
        have hqd : n / 16 < 16 ^ (d - 1) := by
          rw [Nat.div_lt_iff_lt_mul (by norm_num)]
          calc n < 16 ^ d := hd
            _ = 16 ^ (d - 1) * 16 := by
                rw [← pow_succ]
                congr 1
                omega
        have := ihl (d - 1) hqd
        rw [List.length_append, List.length_singleton]
        omega

theorem nibsVal_zeros : ∀ m : Nat, ∀ a : Nat,
    List.foldl (fun acc c => 16 * acc + hexVal c) a (List.replicate m '0')
      = a * 16 ^ m := by
  intro m
  induction m with
  | zero => intro a; simp
  | succ m ih =>
    intro a
    rw [List.replicate_succ, List.foldl_cons, ih]
    show (16 * a + 0) * 16 ^ m = a * 16 ^ (m + 1)
    ring

/-- `v.toString(16).padStart(20, '0')` is a 20-char hex string that reads
back to `v`, for any `v < 16 ^ 20`. -/
theorem padStart_hex_roundtrip (v : Nat) (hv : v < 16 ^ 20) :
    (padStart (natToHexLower v) 20 '0').length = 20 ∧
    IsHexStr (padStart (natToHexLower v) 20 '0') ∧
    hexToNat (padStart (natToHexLower v) 20 '0') = v := by
  by_cases hv0 : v = 0
  · subst hv0
    exact ⟨by decide, by decide, by decide⟩
  · obtain ⟨hval, hchars, hlen⟩ := natToHexCore_spec v v (by omega) le_rfl
    have hdlen : (natToHexLower v).data.length ≤ 20 := by
      rw [natToHexLower, if_neg hv0]
      exact hlen 20 hv
    have hplen : (padStart (natToHexLower v) 20 '0').length = 20 := by
      show (List.replicate (20 - (natToHexLower v).length) '0'
        ++ (natToHexLower v).data).length = 20
      rw [List.length_append, List.length_replicate]
      show 20 - (natToHexLower v).data.length + _ = 20
      omega
    refine ⟨hplen, ?_, ?_⟩
    · intro c hc
      show c ∈ hexChars
      rcases List.mem_append.mp hc with hc | hc
      · rw [List.eq_of_mem_replicate hc]
        decide
      · rw [natToHexLower, if_neg hv0] at hc
        exact hchars c hc
    · show List.foldl _ 0 (List.replicate _ '0' ++ (natToHexLower v).data) = v
      rw [List.foldl_append, nibsVal_zeros]
      rw [natToHexLower, if_neg hv0]
      show List.foldl (fun a c => 16 * a + hexVal c) (0 * 16 ^ _) _ = v
      rw [Nat.zero_mul]
      show List.foldl (fun a c => 16 * a + hexVal c) 0 (natToHexCore v v []) = v
      unfold nibsVal at hval
      rw [List.foldl_map] at hval
      exact hval

theorem pairsToBytes_drop4 (l : List Nat) :
    pairsToBytes (l.drop 4) = (pairsToBytes l).drop 2 := by
  rcases l with _ | ⟨a, _ | ⟨b, _ | ⟨c, _ | ⟨d, t⟩⟩⟩⟩ <;> simp [pairsToBytes]

theorem hexBytes_drop4 (s : String) :
    hexBytes ⟨s.data.drop 4⟩ = (hexBytes s).drop 2 := by
  unfold hexBytes
  show pairsToBytes ((s.data.drop 4).map hexVal) = _
  rw [List.map_drop, pairsToBytes_drop4]

/-- `getIpek` reads its KSN argument only through the bytes of its last
16 hex chars. -/
theorem getIpek_congr (tdes : Cipher) (bdk s t : String)
    (h : hexBytes (jsSubstringFrom s (s.length - 16)) =
         hexBytes (jsSubstringFrom t (t.length - 16))) :
    getIpek tdes bdk s = getIpek tdes bdk t := by
  simp only [getIpek, tdesEncryptHex]
  rw [h]

theorem hexBytes_pad_ksn (ksn : String) (hk : ksn.length = 20) (hh : IsHexStr ksn) :
    hexBytes (padStart (natToHexLower (hexToNat ksn)) 20 '0') = hexBytes ksn := by
  have hv : hexToNat ksn < 16 ^ 20 := hk ▸ hexToNat_lt ksn hh
  obtain ⟨hplen, hphex, hpval⟩ := padStart_hex_roundtrip (hexToNat ksn) hv
  rw [hexBytes_eq_natToBytesBE _ 10 (by omega) hphex,
      hexBytes_eq_natToBytesBE ksn 10 (by omega) hh, hpval]

theorem getIpek_pad_ksn (tdes : Cipher) (bdk ksn : String)
    (hk : ksn.length = 20) (hh : IsHexStr ksn) :
    getIpek tdes bdk (padStart (natToHexLower (hexToNat ksn)) 20 '0') =
      getIpek tdes bdk ksn := by
  have hv : hexToNat ksn < 16 ^ 20 := hk ▸ hexToNat_lt ksn hh
  obtain ⟨hplen, hphex, hpval⟩ := padStart_hex_roundtrip (hexToNat ksn) hv
  apply getIpek_congr
  rw [hplen, hk]
  rw [jsSubstringFrom_drop _ (20 - 16) (by omega),
      jsSubstringFrom_drop _ (20 - 16) (by omega)]
  show hexBytes ⟨List.drop 4 _⟩ = hexBytes ⟨List.drop 4 _⟩
  rw [hexBytes_drop4, hexBytes_drop4, hexBytes_pad_ksn ksn hk hh]

theorem getIpek_eq_some (tdes : Cipher) (hsome : ∀ k d, (tdes k d).isSome = true)
    (bdk ksn : String) : ∃ ip, getIpek tdes bdk ksn = some ip := by
  obtain ⟨a, ha⟩ := Option.isSome_iff_exists.mp (hsome (hexBytes bdk)
    (hexBytes (jsSubstringFrom ksn (ksn.length - 16))))
  obtain ⟨b, hb⟩ := Option.isSome_iff_exists.mp
    (hsome (hexBytes (xorHexStrings [bdk, jsSubstring BDK_MOD_VECTOR 0 bdk.length]))
      (hexBytes (jsSubstringFrom ksn (ksn.length - 16))))
  refine ⟨jsToUpper (bytesToHexLower a) ++ jsToUpper (bytesToHexLower b), ?_⟩
  simp [getIpek, tdesEncryptHex, ha, hb]

theorem foldlM_eq_some {α β : Type} (f : α → β → Option α) (l : List β) (a : α)
    (h : ∀ x b, b ∈ l → f x b = some x) : l.foldlM f a = some a := by
  induction l generalizing a with
  | nil => rfl
  | cons x xs ih =>
    rw [List.foldlM_cons, h a x (List.mem_cons_self x xs)]
    show xs.foldlM f a = some a
    exact ih a (fun y b hb => h y b (List.mem_cons_of_mem _ hb))

/-- C1.  For every BDK of 16 or 24 bytes and every 10-byte hex KSN whose low
21 bits (the transaction counter) are all zero, `deriveDukptKeys` succeeds,
its transaction-key walk performs zero iterations — so `transactionKey`
equals `ipek` — and that IPEK is exactly `getIpek` of the given BDK and
KSN. -/
theorem dukpt_counter_zero_transaction_key_eq_ipek
    (tdes : Cipher) (bdkHex ksnHex : String)
    (hb : bdkHex.length = 32 ∨ bdkHex.length = 48)
    (hk : ksnHex.length = 20) (hh : IsHexStr ksnHex)
    (hctr : hexToNat ksnHex % 2 ^ 21 = 0)
    (hsome : ∀ k d, (tdes k d).isSome = true) :
    (deriveDukptKeys tdes bdkHex ksnHex).isOk = true ∧
    (deriveDukptKeys tdes bdkHex ksnHex).toOption.map DukptKeys.transactionKey =
      (deriveDukptKeys tdes bdkHex ksnHex).toOption.map DukptKeys.ipek ∧
    (deriveDukptKeys tdes bdkHex ksnHex).toOption.map DukptKeys.ipek =
      getIpek tdes bdkHex ksnHex := by
  obtain ⟨ip, hip⟩ := getIpek_eq_some tdes hsome bdkHex ksnHex
  have hip' : getIpek tdes bdkHex
      (padStart (natToHexLower (hexToNat ksnHex)) 20 '0') = some ip := by
    rw [getIpek_pad_ksn tdes bdkHex ksnHex hk hh]
    exact hip
  have hand : hexToNat ksnHex &&& 0x1FFFFF = 0 := by
    have h21 : (0x1FFFFF : Nat) = 2 ^ 21 - 1 := by norm_num
    rw [h21, Nat.and_pow_two_sub_one_eq_mod]
    exact hctr
  have hsub : hexToNat ksnHex - hexToNat ksnHex % 2 ^ 21 = hexToNat ksnHex := by
    omega
  have hall : (ksnHex.data.all fun c => hexChars.contains c) = true := by
    rw [List.all_eq_true]
    intro c hc
    exact List.elem_iff.mpr (hh c hc)
  have hderive : deriveDukptKeys tdes bdkHex ksnHex = Except.ok
      { ipek := ip, transactionKey := ip,
        pinKey := xorHexStrings [ip, PIN_VARIANT_VECTOR],
        macRequestKey := xorHexStrings [ip, MAC_REQUEST_VARIANT_VECTOR],
        macResponseKey := xorHexStrings [ip, MAC_RESPONSE_VARIANT_VECTOR],
        dataRequestKey := xorHexStrings [ip, DATA_REQUEST_VARIANT_VECTOR],
        dataResponseKey := xorHexStrings [ip, DATA_RESPONSE_VARIANT_VECTOR],
        ksn := jsToUpper ksnHex,
        counter := jsToUpper (padStart (natToHexLower 0) 6 '0') } := by
    unfold deriveDukptKeys
    rw [if_neg (not_not_intro hb), if_neg (not_not_intro hk),
        if_neg (not_not_intro hall)]
    simp only []
    rw [hand, hsub, hip']
    have hloop : List.foldlM
        (fun st i => if (0 : Nat) >>> i &&& 1 = 1 then dukptRound tdes st i else some st)
        ((ip, hexToNat ksnHex) : String × Nat) (List.range 21)
        = some (ip, hexToNat ksnHex) :=
      foldlM_eq_some _ _ _ (fun x b _ => by rw [if_neg (by simp)])
    simp only [hloop]
  rw [hderive]
  refine ⟨rfl, rfl, ?_⟩
  rw [hip]
  rfl

/-- Witness for C1 at a concrete 16-byte BDK and a KSN with zero counter,
under the `zeroCipher`. -/
theorem dukpt_counter_zero_transaction_key_eq_ipek_witness :
    (deriveDukptKeys zeroCipher "0123456789ABCDEFFEDCBA9876543210"
      "FFFF9876543210E00000").isOk = true ∧
    (deriveDukptKeys zeroCipher "0123456789ABCDEFFEDCBA9876543210"
      "FFFF9876543210E00000").toOption.map DukptKeys.transactionKey =
      (deriveDukptKeys zeroCipher "0123456789ABCDEFFEDCBA9876543210"
        "FFFF9876543210E00000").toOption.map DukptKeys.ipek ∧
    (deriveDukptKeys zeroCipher "0123456789ABCDEFFEDCBA9876543210"
      "FFFF9876543210E00000").toOption.map DukptKeys.ipek =
      getIpek zeroCipher "0123456789ABCDEFFEDCBA9876543210" "FFFF9876543210E00000" :=
  dukpt_counter_zero_transaction_key_eq_ipek zeroCipher
    "0123456789ABCDEFFEDCBA9876543210" "FFFF9876543210E00000"
    (Or.inl (by decide)) (by decide) (by decide) (by decide)
    (fun k d => rfl)
